import Mathlib

/-!
Verification development for the CFG++ high-performance parser
(`cfgpp_parser.cpp` / `cfgpp_parser.h`, C++ LabVIEW implementation).

The C++ source is shallowly embedded:

* the lexer (`CfgppParser::tokenize`) with its twelve anchored regex
  patterns becomes twelve deterministic prefix matchers tried in the
  same priority order;
* the recursive-descent parser (`parse_value` / `parse_object` /
  `parse_array`) becomes fueled functions over token lists (the fuel is
  an artifact of the embedding; `2 * tokens + 4` calls always suffice
  because every parser call either consumes a token or directly
  delegates once before consuming);
* the schema engine (`cfgpp_schema_parse_string`, `CfgppSchema`,
  `cfgpp_validate_value`) becomes line-oriented folds over association
  lists (the `std::unordered_map`s are modelled as association lists,
  iterated in list order; `operator[]` is overwrite-or-append);
* the LabVIEW binary decoder (`cfgpp_from_labview_variant`,
  `cfgpp_from_labview_cluster`) walks a byte list; a read the C++ code
  performs beyond the actual end of the buffer (undefined behavior in
  C++) is the distinguished outcome `LvOut.oob`;
* `double` values are modelled exactly as rationals (`std::stod` is
  exact decimal interpretation); machine integers use `Nat`/`Int` with
  explicit two's-complement reinterpretation where the code casts.

`cfgpp_value_serialize` is declared in `cfgpp_parser.h` but its body is
not part of the sources; it is modelled from the spec (see
`serTokens`).
-/

namespace Cfgpp

/-! ## Character classes (mirroring `std::isspace` and the regex classes) -/

def isSpaceChar (c : Char) : Bool :=
  c = ' ' ∨ c = '\t' ∨ c = '\n' ∨ c = '\x0b' ∨ c = '\x0c' ∨ c = '\r'

def isDigitChar (c : Char) : Bool :=
  48 ≤ c.toNat ∧ c.toNat ≤ 57

def isAlphaChar (c : Char) : Bool :=
  (97 ≤ c.toNat ∧ c.toNat ≤ 122) ∨ (65 ≤ c.toNat ∧ c.toNat ≤ 90)

/-- `[a-zA-Z_]`, the first character of an identifier. -/
def isIdentStart (c : Char) : Bool :=
  isAlphaChar c ∨ c = '_'

/-- `[a-zA-Z0-9_]`, a continuation character of an identifier. -/
def isIdentChar (c : Char) : Bool :=
  isAlphaChar c ∨ isDigitChar c ∨ c = '_'

/-- `[+\-*/]`, the operator character class. -/
def isOpChar (c : Char) : Bool :=
  c = '+' ∨ c = '-' ∨ c = '*' ∨ c = '/'

/-- `[\{\}\(\)\[\],;=\.]`, the punctuation character class. -/
def isPunctChar (c : Char) : Bool :=
  c = '\x7b' ∨ c = '\x7d' ∨ c = '(' ∨ c = ')' ∨ c = '[' ∨ c = ']' ∨
  c = ',' ∨ c = ';' ∨ c = '=' ∨ c = '.'

/-! ## Token model (`struct Token`) -/

inductive TokKind where
  | identifier | stringLit | number | boolean | enumKw | nullKw
  | includeKw | envVar | operatorTok | namespaceSep | punctuation
  | whitespace | comment | eof
deriving DecidableEq, Repr

structure Tok where
  kind : TokKind
  val : List Char
  line : Nat
  col : Nat
deriving DecidableEq, Repr

structure LexErr where
  msg : List Char
  line : Nat
  col : Nat
deriving DecidableEq, Repr

/-! ## The twelve anchored patterns, in the source's priority order.

Each matcher returns the length of the (unique) prefix match of its
regex at the head of the input, or `none`.  The regexes involved are
deterministic: at every position at most one alternative of the
pattern can continue, so greedy ECMAScript matching coincides with the
direct functional scan below. -/

/-- Boolean prefix test (`std::regex` literal-alternative matching),
defined to case on the pattern first. -/
def pfx : List Char → List Char → Bool
  | [], _ => true
  | a :: as, bs =>
      match bs with
      | [] => false
      | b :: bs' => (a == b) && pfx as bs'

/-- `//.*?$` — ECMAScript `$` (no multiline) only matches at the end of
the searched sequence and `.` does not match a line terminator, so the
pattern matches exactly when the rest of the input starts with `//`
and contains no newline, and then it matches all of it. -/
def matchComment (cs : List Char) : Option Nat :=
  match cs with
  | '/' :: '/' :: rest =>
      if rest.contains '\n' then none else some (2 + rest.length)
  | _ => none

/-- `@(?:include|import)` -/
def matchInclude (cs : List Char) : Option Nat :=
  if pfx "@include".toList cs then some 8
  else if pfx "@import".toList cs then some 7
  else none

/-- Helper for `matchEnvVar`: after `${ident`, an optional `:-[^}]*`
then `}`. -/
def matchEnvVarTail (cs : List Char) : Option Nat :=
  match cs with
  | '\x7d' :: _ => some 1
  | ':' :: '-' :: rest =>
      let k := rest.takeWhile (fun c => c ≠ '\x7d') |>.length
      match rest.drop k with
      | '\x7d' :: _ => some (2 + k + 1)
      | _ => none
  | _ => none

/-- `\$\{[a-zA-Z_][a-zA-Z0-9_]*(?::-[^}]*)?\}` -/
def matchEnvVar (cs : List Char) : Option Nat :=
  match cs with
  | '$' :: '\x7b' :: c :: rest =>
      if isIdentStart c then
        let k := rest.takeWhile isIdentChar |>.length
        match matchEnvVarTail (rest.drop k) with
        | some n => some (3 + k + n)
        | none => none
      else none
  | _ => none

/-- Content scan of `"(?:\\.|[^"\\])*"` after the opening quote:
consumes escape pairs (`\\` followed by any non-line-terminator) and
plain characters (anything but `"` and `\\`), stops successfully at an
unescaped `"`.  Returns the number of characters consumed including
the closing quote. -/
def matchStringAux : List Char → Option Nat
  | [] => none
  | '"' :: _ => some 1
  | '\\' :: c :: rest =>
      if c = '\n' ∨ c = '\r' then none
      else match matchStringAux rest with
        | some n => some (2 + n)
        | none => none
  | '\\' :: [] => none
  | c :: rest =>
      if c = '"' ∨ c = '\\' then none
      else match matchStringAux rest with
        | some n => some (1 + n)
        | none => none

/-- `"(?:\\.|[^"\\])*"` -/
def matchString (cs : List Char) : Option Nat :=
  match cs with
  | '"' :: rest =>
      match matchStringAux rest with
      | some n => some (1 + n)
      | none => none
  | _ => none

/-- `\d+(?:\.\d+)?(?:[eE][+-]?\d+)?` — the fractional group only
participates when the `.` is followed by at least one digit, and the
exponent group only when the `e`/`E` (and optional sign) is followed
by at least one digit; otherwise the optional group is skipped.
`numFracLen` is the length matched by the optional fractional group
`(?:\.\d+)?` (0 when the group fails and is skipped). -/
def numFracLen : List Char → Nat
  | '.' :: r =>
      let d2 := (r.takeWhile isDigitChar).length
      if d2 = 0 then 0 else 1 + d2
  | _ => 0

/-- Length matched by the optional exponent group
`(?:[eE][+-]?\d+)?` (0 when the group fails and is skipped). -/
def numExpLen : List Char → Nat
  | 'e' :: '+' :: r => let d := (r.takeWhile isDigitChar).length
                       if d = 0 then 0 else 2 + d
  | 'e' :: '-' :: r => let d := (r.takeWhile isDigitChar).length
                       if d = 0 then 0 else 2 + d
  | 'e' :: r => let d := (r.takeWhile isDigitChar).length
                if d = 0 then 0 else 1 + d
  | 'E' :: '+' :: r => let d := (r.takeWhile isDigitChar).length
                       if d = 0 then 0 else 2 + d
  | 'E' :: '-' :: r => let d := (r.takeWhile isDigitChar).length
                       if d = 0 then 0 else 2 + d
  | 'E' :: r => let d := (r.takeWhile isDigitChar).length
                if d = 0 then 0 else 1 + d
  | _ => 0

def matchNumber (cs : List Char) : Option Nat :=
  let d1 := (cs.takeWhile isDigitChar).length
  if d1 = 0 then none else
  let rest1 := cs.drop d1
  let fracLen := numFracLen rest1
  let expLen := numExpLen (rest1.drop fracLen)
  some (d1 + fracLen + expLen)

/-- `true|false` (prefix alternation, not longest-match). -/
def matchBoolean (cs : List Char) : Option Nat :=
  if pfx "true".toList cs then some 4
  else if pfx "false".toList cs then some 5
  else none

/-- `enum` -/
def matchEnumKw (cs : List Char) : Option Nat :=
  if pfx "enum".toList cs then some 4 else none

/-- `null` -/
def matchNullKw (cs : List Char) : Option Nat :=
  if pfx "null".toList cs then some 4 else none

/-- `[+\-*/]` -/
def matchOperator (cs : List Char) : Option Nat :=
  match cs with
  | c :: _ => if isOpChar c then some 1 else none
  | [] => none

/-- `::` -/
def matchNamespace (cs : List Char) : Option Nat :=
  if pfx [':', ':'] cs then some 2 else none

/-- `[a-zA-Z_][a-zA-Z0-9_]*` -/
def matchIdentifier (cs : List Char) : Option Nat :=
  match cs with
  | c :: rest =>
      if isIdentStart c then some (1 + (rest.takeWhile isIdentChar).length)
      else none
  | [] => none

/-- `[\{\}\(\)\[\],;=\.]` -/
def matchPunct (cs : List Char) : Option Nat :=
  match cs with
  | c :: _ => if isPunctChar c then some 1 else none
  | [] => none

/-- The fixed priority order of `patterns[]` / `token_types[]` in
`CfgppParser::tokenize`: first pattern that matches at the current
position wins. -/
def priMatch (cs : List Char) : Option (TokKind × Nat) :=
  ((matchComment cs).map fun n => (.comment, n)) <|>
  ((matchInclude cs).map fun n => (.includeKw, n)) <|>
  ((matchEnvVar cs).map fun n => (.envVar, n)) <|>
  ((matchString cs).map fun n => (.stringLit, n)) <|>
  ((matchNumber cs).map fun n => (.number, n)) <|>
  ((matchBoolean cs).map fun n => (.boolean, n)) <|>
  ((matchEnumKw cs).map fun n => (.enumKw, n)) <|>
  ((matchNullKw cs).map fun n => (.nullKw, n)) <|>
  ((matchOperator cs).map fun n => (.operatorTok, n)) <|>
  ((matchNamespace cs).map fun n => (.namespaceSep, n)) <|>
  ((matchIdentifier cs).map fun n => (.identifier, n)) <|>
  ((matchPunct cs).map fun n => (.punctuation, n))

/-- Error message built by the source:
`"Unexpected character: " + std::string(1, text[pos])`. -/
def unexpMsg (c : Char) : List Char :=
  "Unexpected character: ".toList ++ [c]

/-- The main loop of `CfgppParser::tokenize`: skip whitespace while
tracking line/column, match the patterns in priority order, emit every
token except comments, abort on an unmatched character, and append an
end-of-file token.  The fuel argument is an artifact of the embedding:
each loop iteration consumes at least one character, so
`text.length + 1` fuel (as supplied by `cfgppTokenize`) always
suffices. -/
def tokenizeAuxF : Nat → List Char → Nat → Nat → Except LexErr (List Tok)
  | 0, _, _, _ => .error ⟨[], 0, 0⟩
  | _ + 1, [], line, col => .ok [⟨.eof, [], line, col⟩]
  | fuel + 1, c :: cs, line, col =>
      if isSpaceChar c then
        if c = '\n' then tokenizeAuxF fuel cs (line + 1) 1
        else tokenizeAuxF fuel cs line (col + 1)
      else
        match priMatch (c :: cs) with
        | none => .error ⟨unexpMsg c, line, col⟩
        | some (k, n) =>
            let txt := (c :: cs).take n
            let rest := (c :: cs).drop n
            match tokenizeAuxF fuel rest line (col + n) with
            | .error e => .error e
            | .ok toks =>
                if k = .comment then .ok toks
                else .ok (⟨k, txt, line, col⟩ :: toks)

/-- `CfgppParser::tokenize` on a whole text, starting at line 1,
column 1.  A lexing failure yields the error (the C++ function then
returns an empty token vector and stores the error in the parser). -/
def cfgppTokenize (text : List Char) : Except LexErr (List Tok) :=
  tokenizeAuxF (text.length + 1) text 1 1

/-- Prepend a token to a tokenizer result (the success path of one
loop iteration). -/
def consTok (t : Tok) : Except LexErr (List Tok) → Except LexErr (List Tok)
  | .error e => .error e
  | .ok ts => .ok (t :: ts)

/-! ## Value model (`struct CfgppValue`, `CfgppValueType`)

The variant-tagged union is a sum type; the `std::unordered_map` of an
object is an association list whose `operator[]` is
overwrite-in-place-or-append (`insertKV`); `double` is modelled
exactly as a rational. -/

inductive CfgppValue where
  | null
  | boolean (b : Bool)
  | integer (n : Int)
  | double (q : ℚ)
  | stringV (s : String)
  | enumV (s : String)
  | array (elems : List CfgppValue)
  | object (fields : List (String × CfgppValue))

/-- `map[key] = value` on an association list: overwrite the first
binding of the key in place, or append a new binding. -/
def insertKV (m : List (String × CfgppValue)) (k : String) (v : CfgppValue) :
    List (String × CfgppValue) :=
  match m with
  | [] => [(k, v)]
  | (k', v') :: r => if k' = k then (k, v) :: r else (k', v') :: insertKV r k v

/-- Error codes (`CfgppResult`). -/
inductive CfgppResult where
  | success | invalidSyntax | fileNotFound | memoryError
  | invalidParameter | circularInclude | bufferTooSmall
deriving DecidableEq, Repr

/-! ## Numeric conversion (`std::stoll`, `std::stod`) -/

/-- Value of a most-significant-first digit string. -/
def natOfDigits (ds : List Char) : Nat :=
  ds.foldl (fun a c => a * 10 + (c.toNat - 48)) 0

/-- `std::stoll` on a token: reads the leading run of digits (tokens
carry no sign and no leading whitespace); `none` models the
`invalid_argument` exception (no digit) or the `out_of_range`
exception (value does not fit in a signed 64-bit integer). -/
def stollM (w : List Char) : Option Int :=
  let ds := w.takeWhile isDigitChar
  if ds.isEmpty then none
  else if natOfDigits ds < 2 ^ 63 then some (natOfDigits ds) else none

/-- `std::stod` on a token, modelled exactly: the decimal value
`(intPart + frac / 10^fracDigits) * 10^(±exp)` as a rational.  `none`
models the `invalid_argument` exception (no leading digit).  The
`out_of_range` overflow of binary64 is not modelled: doubles are
idealized as exact rationals throughout. -/
def stodFds : List Char → List Char
  | '.' :: r => r.takeWhile isDigitChar
  | _ => []

/-- The signed exponent value consumed by `std::stod` (0 when no
well-formed exponent follows, in which case `stod` stops before the
`e`). -/
def stodExpV : List Char → ℤ
  | 'e' :: '+' :: r => let eds := r.takeWhile isDigitChar
                       if eds.isEmpty then 0 else (natOfDigits eds : ℤ)
  | 'e' :: '-' :: r => let eds := r.takeWhile isDigitChar
                       if eds.isEmpty then 0 else -(natOfDigits eds : ℤ)
  | 'e' :: r => let eds := r.takeWhile isDigitChar
                if eds.isEmpty then 0 else (natOfDigits eds : ℤ)
  | 'E' :: '+' :: r => let eds := r.takeWhile isDigitChar
                       if eds.isEmpty then 0 else (natOfDigits eds : ℤ)
  | 'E' :: '-' :: r => let eds := r.takeWhile isDigitChar
                       if eds.isEmpty then 0 else -(natOfDigits eds : ℤ)
  | 'E' :: r => let eds := r.takeWhile isDigitChar
                if eds.isEmpty then 0 else (natOfDigits eds : ℤ)
  | _ => 0

def stodM (w : List Char) : Option ℚ :=
  let ds := w.takeWhile isDigitChar
  if ds.isEmpty then none else
  let rest1 := w.drop ds.length
  let fds := stodFds rest1
  let fracLen := numFracLen rest1
  let rest2 := rest1.drop fracLen
  some (((natOfDigits ds : ℚ) + (natOfDigits fds : ℚ) / 10 ^ fds.length)
        * 10 ^ stodExpV rest2)

/-! ## Recursive-descent parser (`CfgppParser::parse_value` etc.)

The shared mutable cursor `current_token_pos` becomes explicit list
consumption: each function takes the remaining token list and a
success carries the unconsumed rest.  `PRes.exn` models a thrown C++
exception (numeric conversion failure / `substr` out of range), which
`cfgpp_parse_string` maps to `CFGPP_ERROR_MEMORY_ERROR`, while
`PRes.failP` models `parse_value` returning `nullptr`
(`CFGPP_ERROR_INVALID_SYNTAX`).  The fuel counts parser-function
calls; `2 * tokens + 4` always suffices (every call consumes a token
or delegates exactly once before a token is consumed), and the fuel
supplied by `cfgppParseStringM` is exactly that. -/

inductive PRes where
  | okr (v : CfgppValue) (rest : List Tok)
  | failP
  | exn

/-- `token.value.substr(1, token.value.length() - 2)`: strip the
enclosing quotes; an empty token value would make `substr` throw. -/
def stripQuotes (w : List Char) : Option (List Char) :=
  match w with
  | [] => none
  | _ :: r => some r.dropLast

def lbrace : List Char := ['\x7b']
def rbrace : List Char := ['\x7d']

mutual

def parseValueF : Nat → List Tok → PRes
  | 0, _ => .failP
  | _ + 1, [] => .failP
  | fuel + 1, t :: rest =>
      match t.kind with
      | .stringLit =>
          match stripQuotes t.val with
          | none => .exn
          | some s => .okr (.stringV (String.mk s)) rest
      | .number =>
          if t.val.contains '.' ∨ t.val.contains 'e' ∨ t.val.contains 'E' then
            match stodM t.val with
            | some q => .okr (.double q) rest
            | none => .exn
          else
            match stollM t.val with
            | some n => .okr (.integer n) rest
            | none => .exn
      | .boolean => .okr (.boolean (t.val = "true".toList)) rest
      | .nullKw => .okr .null rest
      | .punctuation =>
          if t.val = lbrace then parseObjectF fuel (t :: rest)
          else if t.val = ['['] then parseArrayF fuel (t :: rest)
          else .failP
      | .identifier =>
          if rest.head?.map Tok.val = some lbrace then
            parseObjectF fuel (t :: rest)
          else .okr (.enumV (String.mk t.val)) rest
      | _ => .failP

/-- `parse_object`: skip one optional leading identifier (the
discarded object name), then parse the braced body. -/
def parseObjectF : Nat → List Tok → PRes
  | 0, _ => .failP
  | fuel + 1, ts =>
      match ts with
      | t :: r => if t.kind = .identifier then parseObjBodyF fuel r
                  else parseObjBodyF fuel ts
      | [] => parseObjBodyF fuel ts

/-- The part of `parse_object` from the `{` check on. -/
def parseObjBodyF : Nat → List Tok → PRes
  | 0, _ => .failP
  | fuel + 1, ts =>
      match ts with
      | t :: r => if t.val = lbrace then parseFieldsF fuel [] r else .failP
      | [] => .failP

/-- The field loop of `parse_object`
(`IDENTIFIER '=' value [';']` repeated until `}`). -/
def parseFieldsF : Nat → List (String × CfgppValue) → List Tok → PRes
  | 0, _, _ => .failP
  | fuel + 1, acc, ts =>
      match ts with
      | [] => .failP
      | t :: r =>
          if t.val = rbrace then .okr (.object acc) r
          else if t.kind = .identifier then
            match r with
            | t2 :: r2 =>
                if t2.val = ['='] then
                  match parseValueF fuel r2 with
                  | .okr v rest3 =>
                      let acc' := insertKV acc (String.mk t.val) v
                      match rest3 with
                      | t3 :: r3 =>
                          if t3.val = [';'] then parseFieldsF fuel acc' r3
                          else parseFieldsF fuel acc' rest3
                      | [] => parseFieldsF fuel acc' rest3
                  | e => e
                else .failP
            | [] => .failP
          else .failP

def parseArrayF : Nat → List Tok → PRes
  | 0, _ => .failP
  | fuel + 1, ts =>
      match ts with
      | t :: r => if t.val = ['['] then parseElemsF fuel [] r else .failP
      | [] => .failP

/-- The element loop of `parse_array` (values with optional `,`
separators until `]`). -/
def parseElemsF : Nat → List CfgppValue → List Tok → PRes
  | 0, _, _ => .failP
  | fuel + 1, acc, ts =>
      match ts with
      | [] => .failP
      | t :: _ =>
          if t.val = [']'] then .okr (.array acc) ts.tail
          else
            match parseValueF fuel ts with
            | .okr v rest2 =>
                if rest2.head?.map Tok.val = some [','] then
                  parseElemsF fuel (acc ++ [v]) rest2.tail
                else parseElemsF fuel (acc ++ [v]) rest2
            | e => e

end

/-- `cfgpp_parse_string`: tokenize, check for the empty token vector
(the lexer's error result), parse one value from position 0 and ignore
whatever tokens follow it. -/
def cfgppParseStringM (text : List Char) : Except CfgppResult CfgppValue :=
  match cfgppTokenize text with
  | .error _ => .error .invalidSyntax
  | .ok ts =>
      match parseValueF (2 * ts.length + 4) ts with
      | .okr v _ => .ok v
      | .failP => .error .invalidSyntax
      | .exn => .error .memoryError

/-! ## Schema engine (`struct CfgppSchema`, `cfgpp_schema_parse_string`,
`cfgpp_validate_value`)

The two `std::unordered_map`s are association lists; iteration order
of `object_schemas` in `cfgpp_validate_value` is the list order (the
C++ iteration order of the unordered map is unspecified).  The
violation string concatenated by the C++ code is kept as the list of
appended messages (the buffer holds their concatenation; empty list =
empty string = value reported valid). -/

structure CfgppSchemaM where
  enum_definitions : List (String × List String)
  object_schemas : List (String × List (String × String))

/-- `operator[]` on `enum_definitions`. -/
def insertEnum (m : List (String × List String)) (k : String)
    (v : List String) : List (String × List String) :=
  match m with
  | [] => [(k, v)]
  | (k', v') :: r => if k' = k then (k, v) :: r else (k', v') :: insertEnum r k v

/-- `object_schemas[cur][fn] = ft` (nested `operator[]`). -/
def insertField (m : List (String × List (String × String)))
    (cur fn ft : String) : List (String × List (String × String)) :=
  match m with
  | [] => [(cur, [(fn, ft)])]
  | (k', fs) :: r =>
      if k' = cur then (cur, insertFieldInner fs fn ft) :: r
      else (k', fs) :: insertField r cur fn ft
where
  insertFieldInner (fs : List (String × String)) (fn ft : String) :
      List (String × String) :=
    match fs with
    | [] => [(fn, ft)]
    | (f', t') :: r => if f' = fn then (fn, ft) :: r
                       else (f', t') :: insertFieldInner r fn ft

def isWTChar (c : Char) : Bool := c = ' ' ∨ c = '\t'

/-- Trim leading and trailing spaces/tabs
(`erase(0, find_first_not_of(" \t"))` then
`erase(find_last_not_of(" \t") + 1)`). -/
def trimWT (l : List Char) : List Char :=
  ((l.dropWhile isWTChar).reverse.dropWhile isWTChar).reverse

/-- Trim of a field type: leading spaces/tabs, trailing spaces, tabs
and semicolons (`find_last_not_of(" \t;")`). -/
def trimType (l : List Char) : List Char :=
  ((l.dropWhile isWTChar).reverse.dropWhile
    (fun c => c = ' ' ∨ c = '\t' ∨ c = ';')).reverse

/-- `std::string::find(substring) != npos`: does `pat` occur as a
contiguous substring of `l`? -/
def hasInfix (l pat : List Char) : Bool :=
  match l with
  | [] => pat.isEmpty
  | _ :: r => pfx pat l ∨ hasInfix r pat

/-- Index of the first occurrence of `c`, or `none`
(`std::string::find`). -/
def idxOf (l : List Char) (c : Char) : Option Nat :=
  match l with
  | [] => none
  | x :: r => if x = c then some 0 else (idxOf r c).map (· + 1)

/-- `std::getline` over the whole text: lines split at `'\n'`; a final
trailing newline produces no extra empty line, and the empty text has
no lines. -/
def splitLinesGo : List Char → List Char → List (List Char)
  | [], cur => [cur.reverse]
  | '\n' :: r, cur => cur.reverse :: (if r.isEmpty then [] else splitLinesGo r [])
  | c :: r, cur => splitLinesGo r (c :: cur)

def splitLines (t : List Char) : List (List Char) :=
  if t.isEmpty then [] else splitLinesGo t []

/-- One iteration of the line loop of `cfgpp_schema_parse_string`:
trim; skip blank lines and lines starting with `/` or `#`; a line
starting with `"enum "` that contains `{` records an enum with an
empty member list (member harvesting is unimplemented in the source);
a line containing `{` but not the substring `"enum"` opens an object
scope; inside a scope, a line containing `:` records
`field_name : field_type`; a line containing `}` closes the scope. -/
def schemaLine (st : CfgppSchemaM × String) (rawLine : List Char) :
    CfgppSchemaM × String :=
  let line := trimWT rawLine
  if line.isEmpty ∨ line.head? = some '/' ∨ line.head? = some '#' then st
  else
    let sch := st.1
    let sch1 :=
      if pfx "enum ".toList line then
        match idxOf line '\x7b' with
        | some bp =>
            let enumName := String.mk (trimWT ((line.drop 5).take (bp - 5)))
            { sch with enum_definitions :=
                insertEnum sch.enum_definitions enumName [] }
        | none => sch
      else sch
    let cur1 :=
      if (idxOf line '\x7b').isSome ∧ ¬ (hasInfix line "enum".toList) then
        match idxOf line '\x7b' with
        | some bp => String.mk (trimWT (line.take bp))
        | none => st.2
      else st.2
    let sch2 :=
      if cur1 ≠ "" ∧ (idxOf line ':').isSome then
        match idxOf line ':' with
        | some cp =>
            let fn := String.mk (trimWT (line.take cp))
            let ft := String.mk (trimType (line.drop (cp + 1)))
            { sch1 with object_schemas :=
                insertField sch1.object_schemas cur1 fn ft }
        | none => sch1
      else sch1
    let cur2 := if line.contains '\x7d' then "" else cur1
    (sch2, cur2)

/-- `cfgpp_schema_parse_string` (always returns `CFGPP_SUCCESS` for
in-memory text; the resulting definition tables are the interesting
output). -/
def schemaParseString (text : List Char) : CfgppSchemaM :=
  (splitLines text |>.foldl schemaLine (⟨[], []⟩, "")).1

/-- `CfgppSchema::validate_type`: built-in type names match by value
variant tag; a name registered as an enum type requires an Enum value
whose string is among the recorded members; any other name fails. -/
def validateType (sch : CfgppSchemaM) (expected : String)
    (v : CfgppValue) : Bool :=
  if expected = "string" then (match v with | .stringV _ => true | _ => false)
  else if expected = "integer" then
    (match v with | .integer _ => true | _ => false)
  else if expected = "double" then
    (match v with | .double _ => true | _ => false)
  else if expected = "boolean" then
    (match v with | .boolean _ => true | _ => false)
  else if expected = "array" then
    (match v with | .array _ => true | _ => false)
  else if expected = "object" then
    (match v with | .object _ => true | _ => false)
  else
    match sch.enum_definitions.lookup expected with
    | some vals =>
        (match v with
         | .enumV s => vals.contains s
         | _ => false)
    | none => false

/-- Violation message for a missing field
(`"Missing required field: " + field_name + "; "`). -/
def missingMsg (fn : String) : String :=
  "Missing required field: " ++ fn ++ "; "

def squote : String := String.mk [Char.ofNat 39]

/-- Violation message for a wrongly-typed field
(`"Field +" + name + "+ has wrong type, expected " + type + "; "`
with single quotes around the name). -/
def wrongTypeMsg (fn ft : String) : String :=
  "Field " ++ squote ++ fn ++ squote ++ " has wrong type, expected " ++
  ft ++ "; "

/-- The body of the per-field loop of `cfgpp_validate_value`: append a
violation and clear `matches` for a missing or wrongly-typed field. -/
def checkStep (sch : CfgppSchemaM) (m : List (String × CfgppValue))
    (acc : List String × Bool) (ft : String × String) : List String × Bool :=
  match m.lookup ft.1 with
  | none => (acc.1 ++ [missingMsg ft.1], false)
  | some v =>
      if validateType sch ft.2 v then acc
      else (acc.1 ++ [wrongTypeMsg ft.1 ft.2], false)

/-- The per-schema field check of `cfgpp_validate_value`: walk the
schema's field/type map with `checkStep`. -/
def checkFields (sch : CfgppSchemaM) (fields : List (String × String))
    (m : List (String × CfgppValue)) : List String × Bool :=
  fields.foldl (checkStep sch m) ([], true)

/-- The schema loop of `cfgpp_validate_value`: try each object-schema
in iteration order, accumulating all violations; stop at the first
fully-matching schema.  Violations accumulated from earlier schemas
are not discarded. -/
def findMatch (sch : CfgppSchemaM) :
    List (String × List (String × String)) →
    List (String × CfgppValue) → List String → List String
  | [], _, errors => errors
  | (_, flds) :: rest, m, errors =>
      let r := checkFields sch flds m
      if r.2 then errors ++ r.1
      else findMatch sch rest m (errors ++ r.1)

/-- `cfgpp_validate_value` as the list of violation messages whose
concatenation the C++ code copies into the caller's buffer; the call
returns `CFGPP_SUCCESS` exactly when this list is empty.  Non-object
values are not validated at all (no violations). -/
def validateValue (sch : CfgppSchemaM) (v : CfgppValue) : List String :=
  match v with
  | .object m => findMatch sch sch.object_schemas m []
  | _ => []

/-! ## LabVIEW binary record decoder (`cfgpp_from_labview_variant`,
`cfgpp_from_labview_cluster`)

A buffer is the list of bytes actually owned by the caller; the
`data_size` argument is the size the caller claims.  `LabViewDataHeader`
is 16 bytes (four 32-bit little-endian fields); the variant decoder
reads only `type_code`, the cluster decoder also reads `data_size`.
A read beyond the end of the byte list models a C++ read past the end
of the allocation — undefined behavior — and is the distinguished
outcome `LvOut.oob` (the C++ code performs such reads: it never checks
the payload against the buffer size).

`LABVIEW_TYPE_U64` and `LABVIEW_TYPE_DBL` are both declared as `10` in
`cfgpp_parser.h`, so the `switch` in `cfgpp_from_labview_variant` has
two `case 10:` labels (ill-formed C++); the model resolves type code
10 to the textually first branch (U64).  Type code 10 is not involved
in any theorem below. -/

inductive LvOut where
  | okv (v : CfgppValue)
  | errv (r : CfgppResult)
  | oob

/-- Little-endian value of a byte list (first byte least
significant). -/
def leVal (bs : List Nat) : Nat :=
  bs.foldr (fun b acc => b + 256 * acc) 0

/-- Read `len` bytes at offset `off`; `none` when the read runs past
the end of the actual buffer. -/
def readLE (data : List Nat) (off len : Nat) : Option Nat :=
  if off + len ≤ data.length then some (leVal ((data.drop off).take len))
  else none

def bytesAt (data : List Nat) (off len : Nat) : Option (List Nat) :=
  if off + len ≤ data.length then some ((data.drop off).take len) else none

/-- Two's-complement reinterpretation of a `w`-bit unsigned value as a
signed integer (the `reinterpret_cast` reads of i8/i16/i32/i64 and the
`static_cast<int64_t>` of a u64). -/
def toSigned (w : Nat) (n : Nat) : Int :=
  if n < 2 ^ (w - 1) then (n : Int) else (n : Int) - 2 ^ w

/-- Exact rational value of an IEEE-754 binary32 bit pattern.  The
all-ones exponent (infinities and NaNs) has no rational value and is
idealized by extending the normal-number formula; no theorem below
evaluates this function. -/
def sglToRat (n : Nat) : ℚ :=
  let s : ℕ := n / 2 ^ 31
  let e : ℕ := (n / 2 ^ 23) % 2 ^ 8
  let m : ℕ := n % 2 ^ 23
  let mag : ℚ :=
    if e = 0 then (m : ℚ) * (2 : ℚ) ^ (-(149 : ℤ))
    else ((2 ^ 23 + m : ℕ) : ℚ) * (2 : ℚ) ^ ((e : ℤ) - 150)
  if s = 1 then -mag else mag

/-- Exact rational value of an IEEE-754 binary64 bit pattern, with the
same idealization of the all-ones exponent as `sglToRat`. -/
def dblToRat (n : Nat) : ℚ :=
  let s : ℕ := n / 2 ^ 63
  let e : ℕ := (n / 2 ^ 52) % 2 ^ 11
  let m : ℕ := n % 2 ^ 52
  let mag : ℚ :=
    if e = 0 then (m : ℚ) * (2 : ℚ) ^ (-(1074 : ℤ))
    else ((2 ^ 52 + m : ℕ) : ℚ) * (2 : ℚ) ^ ((e : ℤ) - 1075)
  if s = 1 then -mag else mag

/-- `cfgpp_from_labview_variant`: reject a claimed size smaller than
the 16-byte header, then dispatch on `type_code` and read the payload
that immediately follows the header.  The payload length is implied by
the type (never checked against `data_size`): a payload extending past
the actual buffer is an out-of-bounds read (`oob`).  Unknown type
codes are `CFGPP_ERROR_INVALID_PARAMETER`. -/
def fromLabviewVariantM (data : List Nat) (dataSize : Nat) : LvOut :=
  if dataSize < 16 then .errv .invalidParameter
  else
    match readLE data 0 4 with
    | none => .oob
    | some tc =>
        match tc with
        | 33 => match readLE data 16 1 with
                | none => .oob
                | some b => .okv (.boolean (b ≠ 0))
        | 1 => match readLE data 16 1 with
               | none => .oob
               | some n => .okv (.integer (toSigned 8 n))
        | 2 => match readLE data 16 2 with
               | none => .oob
               | some n => .okv (.integer (toSigned 16 n))
        | 3 => match readLE data 16 4 with
               | none => .oob
               | some n => .okv (.integer (toSigned 32 n))
        | 5 => match readLE data 16 8 with
               | none => .oob
               | some n => .okv (.integer (toSigned 64 n))
        | 6 => match readLE data 16 1 with
               | none => .oob
               | some n => .okv (.integer n)
        | 7 => match readLE data 16 2 with
               | none => .oob
               | some n => .okv (.integer n)
        | 8 => match readLE data 16 4 with
               | none => .oob
               | some n => .okv (.integer n)
        | 10 => match readLE data 16 8 with
                | none => .oob
                | some n => .okv (.integer (toSigned 64 n))
        | 9 => match readLE data 16 4 with
               | none => .oob
               | some n => .okv (.double (sglToRat n))
        | 48 =>
            match readLE data 16 4 with
            | none => .oob
            | some len =>
                match bytesAt data 20 len with
                | none => .oob
                | some bs =>
                    .okv (.stringV (String.mk (bs.map Char.ofNat)))
        | _ => .errv .invalidParameter

/-- The field loop of `cfgpp_from_labview_cluster`: for each field
name while the offset is inside the claimed size, stop early if no
full header fits, read the header's `data_size`, decode the field with
`cfgpp_from_labview_variant` on the record's bytes, insert the value
on success and silently skip the field on failure, and advance by
header + declared payload size. -/
def clusterLoop (data : List Nat) (dataSize : Nat) :
    List String → Nat → List (String × CfgppValue) → LvOut
  | [], _, m => .okv (.object m)
  | name :: rest, off, m =>
      if off < dataSize then
        if off + 16 ≤ dataSize then
          match readLE data (off + 8) 4 with
          | none => .oob
          | some dsz =>
              match fromLabviewVariantM (data.drop off) (dsz + 16) with
              | .okv v => clusterLoop data dataSize rest (off + 16 + dsz)
                            (insertKV m name v)
              | .errv _ => clusterLoop data dataSize rest (off + 16 + dsz) m
              | .oob => .oob
        else .okv (.object m)
      else .okv (.object m)

/-- `cfgpp_from_labview_cluster`: an empty field-name list is
`CFGPP_ERROR_INVALID_PARAMETER`; otherwise run the field loop and
return the assembled object with `CFGPP_SUCCESS` — even when fields
were skipped because their scalar decode failed. -/
def fromLabviewClusterM (data : List Nat) (dataSize : Nat)
    (fieldNames : List String) : LvOut :=
  if fieldNames.isEmpty then .errv .invalidParameter
  else clusterLoop data dataSize fieldNames 0 []

/-! ## Serializer, modelled from the spec.

Modelled from the spec: `cfgpp_value_serialize` is declared in
`cfgpp_parser.h` (lines 167-172) but its implementation is not among
the sources.  The spec fixes no exact grammar, only that
"serialization to text is a pure recursive print of this tree" and
that parsing the serializer's output must reproduce an equivalent
Value tree (§6, §8).  The model prints each value as a
space-separated token sequence of the parser's own grammar:
`null`/`true`/`false`, decimal digits for integers, a
digits`.0e-`digits literal for (exact, nonnegative decimal) doubles,
the quoted content for strings, the bare identifier for enum
references, `[ v , ... ]` for arrays and `{ k = v ; ... }` for
objects, preserving array order and object field order. -/

/-- Most-significant-first decimal digit characters of a natural
number. -/
def natDigits (n : Nat) : List Char :=
  if n = 0 then ['0']
  else ((Nat.digits 10 n).map (fun d => Char.ofNat (48 + d))).reverse

/-- Digit characters of an `int64` value (integers the parser can
produce are nonnegative). -/
def intDigits (n : Int) : List Char :=
  if n < 0 then '-' :: natDigits n.natAbs else natDigits n.toNat

/-- Decimal literal for an exact nonnegative decimal rational `q`:
with `k = q.den` (so that `q * 10^k` is a natural number),
`digits(q * 10^k) ++ ".0e-" ++ digits k`, which the parser's
`std::stod` model evaluates back to exactly `q`. -/
def doubleLit (q : ℚ) : List Char :=
  let k := q.den
  let m := (q * 10 ^ k).num
  if m.toNat = q * 10 ^ k ∧ 0 ≤ m then
    natDigits m.toNat ++ '.' :: '0' :: 'e' :: '-' :: natDigits k
  else '0' :: '.' :: ['0']

mutual

/-- The token pieces (kind and text) of the serialized form of a
value. -/
def serTokens : CfgppValue → List (TokKind × List Char)
  | .null => [(.nullKw, "null".toList)]
  | .boolean b => [(.boolean, if b then "true".toList else "false".toList)]
  | .integer n => [(.number, intDigits n)]
  | .double q => [(.number, doubleLit q)]
  | .stringV s => [(.stringLit, '"' :: s.toList ++ ['"'])]
  | .enumV s => [(.identifier, s.toList)]
  | .array es =>
      (.punctuation, ['[']) :: serTokensArr es ++ [(.punctuation, [']'])]
  | .object fs =>
      (.punctuation, lbrace) :: serTokensFlds fs ++ [(.punctuation, rbrace)]

/-- Array elements, `,`-separated. -/
def serTokensArr : List CfgppValue → List (TokKind × List Char)
  | [] => []
  | [v] => serTokens v
  | v :: vs => serTokens v ++ (.punctuation, [',']) :: serTokensArr vs

/-- Object fields, each `key = value ;`. -/
def serTokensFlds : List (String × CfgppValue) → List (TokKind × List Char)
  | [] => []
  | (k, v) :: r =>
      (.identifier, k.toList) :: (.punctuation, ['=']) ::
      serTokens v ++ (.punctuation, [';']) :: serTokensFlds r

end

/-- Space-separated concatenation of the token texts. -/
def joinSpace : List (List Char) → List Char
  | [] => []
  | [w] => w
  | w :: ws => w ++ ' ' :: joinSpace ws

/-- Modelled from the spec: `cfgpp_value_serialize` as the
space-separated print of the value's token sequence. -/
def serializeChars (v : CfgppValue) : List Char :=
  joinSpace ((serTokens v).map Prod.snd)

/-! ## Language predicates tying parser outputs to lexer token shapes -/

/-- The kind/text projection of a token (positions are irrelevant to
the parser). -/
def projTok (t : Tok) : TokKind × List Char := (t.kind, t.val)

/-- The content language of a string literal: what can stand between
the quotes of the STRING pattern `"(?:\\.|[^"\\])*"` — a sequence of
escape pairs (backslash plus any non-line-terminator) and plain
characters (anything but quote and backslash). -/
inductive ContentLang : List Char → Prop where
  | nil : ContentLang []
  | esc (c : Char) (rest : List Char) (h1 : c ≠ '\n') (h2 : c ≠ '\r')
      (h : ContentLang rest) : ContentLang ('\\' :: c :: rest)
  | chr (c : Char) (rest : List Char) (h1 : c ≠ '"') (h2 : c ≠ '\\')
      (h : ContentLang rest) : ContentLang (c :: rest)

/-- Identifier shape: `[a-zA-Z_][a-zA-Z0-9_]*`. -/
def IdentShape (w : List Char) : Prop :=
  ∃ c w', w = c :: w' ∧ isIdentStart c = true ∧
    ∀ x ∈ w', isIdentChar x = true

/-- The exact texts an IDENTIFIER token can carry: identifier shape,
and none of the keyword patterns (which have higher priority in
`tokenize`) matches at its start. -/
def IdentOk (w : List Char) : Prop :=
  IdentShape w ∧
  pfx "true".toList w = false ∧
  pfx "false".toList w = false ∧
  pfx "enum".toList w = false ∧
  pfx "null".toList w = false

/-- Exact values `std::stod` can produce from a NUMBER token:
nonnegative rationals with a power-of-ten denominator. -/
def IsDecimal (q : ℚ) : Prop :=
  ∃ (n k : ℕ), q = (n : ℚ) / 10 ^ k

/-- The value trees the parser can produce (used both as the outcome
of parser soundness and as the hypothesis of the round-trip
argument). -/
inductive Producible : CfgppValue → Prop where
  | null : Producible .null
  | boolean (b : Bool) : Producible (.boolean b)
  | integer (n : ℤ) (h0 : 0 ≤ n) (h1 : n < 2 ^ 63) : Producible (.integer n)
  | double (q : ℚ) (h : IsDecimal q) : Producible (.double q)
  | stringV (s : String) (h : ContentLang s.toList) :
      Producible (.stringV s)
  | enumV (s : String) (h : IdentOk s.toList) : Producible (.enumV s)
  | array (es : List CfgppValue) (h : ∀ v ∈ es, Producible v) :
      Producible (.array es)
  | object (fs : List (String × CfgppValue))
      (hk : ∀ p ∈ fs, IdentOk p.1.toList)
      (hnd : (fs.map Prod.fst).Nodup)
      (hv : ∀ p ∈ fs, Producible p.2) : Producible (.object fs)

/-- Shape invariants of lexer output used by parser soundness: STRING
tokens are quoted content-language texts, IDENTIFIER tokens are
keyword-free identifiers. -/
def WfTok (t : Tok) : Prop :=
  (t.kind = .stringLit → ∃ s, ContentLang s ∧ t.val = '"' :: s ++ ['"']) ∧
  (t.kind = .identifier → IdentOk t.val)

/-- `r` is empty or starts with a space — the context in which every
serialized token text is re-lexed. -/
def SpacedOrEnd (r : List Char) : Prop :=
  r = [] ∨ ∃ r', r = ' ' :: r'

/-- A token piece that re-lexes to exactly itself in any
space-separated context. -/
def GoodPiece (p : TokKind × List Char) : Prop :=
  p.2 ≠ [] ∧ (∀ c, p.2.head? = some c → isSpaceChar c = false) ∧
  p.1 ≠ .comment ∧
  ∀ r, SpacedOrEnd r → priMatch (p.2 ++ r) = some (p.1, p.2.length)

/-- The continuation after a parsed value never starts with a `{`
token (so an IDENTIFIER directly before it is an enum reference, not
an object name). -/
def RestOk (rest : List Tok) : Prop :=
  rest.head?.map Tok.val ≠ some lbrace

/-- Every token of the list satisfies `WfTok` (invariant of lexer
output). -/
def AllWf (ts : List Tok) : Prop := ∀ t ∈ ts, WfTok t

/-- Invariant of the accumulator of the object-field loop: keys are
identifier-shaped keyword-free texts, keys are distinct, values are
producible. -/
def AccOk (acc : List (String × CfgppValue)) : Prop :=
  (∀ p ∈ acc, IdentOk p.1.toList) ∧ (acc.map Prod.fst).Nodup ∧
  ∀ p ∈ acc, Producible p.2

/-! ## General list helpers -/

theorem takeWhile_all_append {p : Char → Bool} {w r : List Char}
    (hw : ∀ c ∈ w, p c = true)
    (hr : ∀ c, r.head? = some c → p c = false) :
    (w ++ r).takeWhile p = w := by
  induction w with
  | nil =>
      simp only [List.nil_append]
      cases r with
      | nil => rfl
      | cons c r' =>
          simp [List.takeWhile_cons, hr c rfl]
  | cons a w' ih =>
      have ha : p a = true := hw a (by simp)
      simp [List.takeWhile_cons, ha, ih (fun c hc => hw c (by simp [hc]))]

theorem prefixOf_append_spaced (kw : List Char) {w r : List Char}
    (hkw : ∀ c ∈ kw, c ≠ ' ') (hr : SpacedOrEnd r) :
    pfx kw (w ++ r) = pfx kw w := by
  induction kw generalizing w with
  | nil => simp [pfx]
  | cons k kw' ih =>
      cases w with
      | cons a w' =>
          simp only [List.cons_append, pfx]
          exact congrArg (_ && ·) (ih (fun c hc => hkw c (by simp [hc])))
      | nil =>
          simp only [List.nil_append, pfx]
          rcases hr with h | ⟨r', rfl⟩
          · simp [h, pfx]
          · have hk : (k == ' ') = false := by
              have := hkw k (by simp)
              simp [beq_eq_false_iff_ne, this]
            simp [pfx, hk]

theorem pfx_false_of_head_ne {a c : Char} {p cs : List Char}
    (h : a ≠ c) : pfx (a :: p) (c :: cs) = false := by
  simp [pfx, beq_eq_false_iff_ne, h]

/-! ## Matcher no-match lemmas (head conditions) -/

theorem matchComment_none {cs : List Char}
    (h : ∀ c, cs.head? = some c → c ≠ '/') : matchComment cs = none := by
  unfold matchComment
  split
  · exact absurd rfl (h '/' rfl)
  · rfl

theorem matchInclude_none {cs : List Char}
    (h : ∀ c, cs.head? = some c → c ≠ '@') : matchInclude cs = none := by
  match cs with
  | [] => rfl
  | c :: r =>
      have hc := h c rfl
      rw [matchInclude]
      rw [show (pfx "@include".toList (c :: r)) = false from
            pfx_false_of_head_ne (by intro he; exact hc he.symm),
          show (pfx "@import".toList (c :: r)) = false from
            pfx_false_of_head_ne (by intro he; exact hc he.symm)]
      rfl

theorem matchEnvVar_none {cs : List Char}
    (h : ∀ c, cs.head? = some c → c ≠ '$') : matchEnvVar cs = none := by
  unfold matchEnvVar
  split
  · exact absurd rfl (h '$' rfl)
  · rfl

theorem matchString_none {cs : List Char}
    (h : ∀ c, cs.head? = some c → c ≠ '"') : matchString cs = none := by
  unfold matchString
  split
  · exact absurd rfl (h '"' rfl)
  · rfl

theorem matchNumber_none {cs : List Char}
    (h : ∀ c, cs.head? = some c → isDigitChar c = false) :
    matchNumber cs = none := by
  have hz : (cs.takeWhile isDigitChar).length = 0 := by
    cases cs with
    | nil => rfl
    | cons c r => simp [List.takeWhile_cons, h c rfl]
  rw [matchNumber]
  simp [hz]

theorem matchBoolean_none2 {cs : List Char}
    (h1 : pfx "true".toList cs = false)
    (h2 : pfx "false".toList cs = false) : matchBoolean cs = none := by
  rw [matchBoolean, h1, h2]; rfl

theorem matchBoolean_none {cs : List Char}
    (h : ∀ c, cs.head? = some c → c ≠ 't' ∧ c ≠ 'f') :
    matchBoolean cs = none := by
  match cs with
  | [] => rfl
  | c :: r =>
      exact matchBoolean_none2
        (pfx_false_of_head_ne (by intro he; exact (h c rfl).1 he.symm))
        (pfx_false_of_head_ne (by intro he; exact (h c rfl).2 he.symm))

theorem matchEnumKw_none2 {cs : List Char}
    (h : pfx "enum".toList cs = false) : matchEnumKw cs = none := by
  rw [matchEnumKw, h]; rfl

theorem matchEnumKw_none {cs : List Char}
    (h : ∀ c, cs.head? = some c → c ≠ 'e') : matchEnumKw cs = none := by
  match cs with
  | [] => rfl
  | c :: r =>
      exact matchEnumKw_none2
        (pfx_false_of_head_ne (by intro he; exact (h c rfl) he.symm))

theorem matchNullKw_none2 {cs : List Char}
    (h : pfx "null".toList cs = false) : matchNullKw cs = none := by
  rw [matchNullKw, h]; rfl

theorem matchNullKw_none {cs : List Char}
    (h : ∀ c, cs.head? = some c → c ≠ 'n') : matchNullKw cs = none := by
  match cs with
  | [] => rfl
  | c :: r =>
      exact matchNullKw_none2
        (pfx_false_of_head_ne (by intro he; exact (h c rfl) he.symm))

theorem matchOperator_none {cs : List Char}
    (h : ∀ c, cs.head? = some c → isOpChar c = false) :
    matchOperator cs = none := by
  match cs with
  | [] => rfl
  | c :: r => rw [matchOperator]; simp [h c rfl]

theorem matchNamespace_none {cs : List Char}
    (h : ∀ c, cs.head? = some c → c ≠ ':') : matchNamespace cs = none := by
  match cs with
  | [] => rfl
  | c :: r =>
      rw [matchNamespace]
      rw [show (pfx [':', ':'] (c :: r)) = false from
            pfx_false_of_head_ne (by intro he; exact (h c rfl) he.symm)]
      rfl

theorem matchIdentifier_none {cs : List Char}
    (h : ∀ c, cs.head? = some c → isIdentStart c = false) :
    matchIdentifier cs = none := by
  match cs with
  | [] => rfl
  | c :: r => rw [matchIdentifier]; simp [h c rfl]

theorem matchPunct_none {cs : List Char}
    (h : ∀ c, cs.head? = some c → isPunctChar c = false) :
    matchPunct cs = none := by
  match cs with
  | [] => rfl
  | c :: r => rw [matchPunct]; simp [h c rfl]

/-! ## Character class consequences -/

theorem not_space_of_digit {c : Char} (h : isDigitChar c = true) :
    isSpaceChar c = false := by
  simp only [isSpaceChar, decide_eq_false_iff_not]
  rintro (rfl | rfl | rfl | rfl | rfl | rfl) <;> exact absurd h (by decide)

theorem not_space_of_identStart {c : Char} (h : isIdentStart c = true) :
    isSpaceChar c = false := by
  simp only [isSpaceChar, decide_eq_false_iff_not]
  rintro (rfl | rfl | rfl | rfl | rfl | rfl) <;> exact absurd h (by decide)

theorem digit_not_identValues {c : Char} (h : isDigitChar c = true) :
    c ≠ '/' ∧ c ≠ '@' ∧ c ≠ '$' ∧ c ≠ '"' ∧ c ≠ 't' ∧ c ≠ 'f' ∧
    c ≠ 'e' ∧ c ≠ 'n' ∧ c ≠ ':' := by
  refine ⟨?_, ?_, ?_, ?_, ?_, ?_, ?_, ?_, ?_⟩ <;>
    (rintro rfl; exact absurd h (by decide))

theorem identStart_not_special {c : Char} (h : isIdentStart c = true) :
    c ≠ '/' ∧ c ≠ '@' ∧ c ≠ '$' ∧ c ≠ '"' ∧ c ≠ ':' ∧
    isDigitChar c = false ∧ isOpChar c = false := by
  have h' := h
  simp only [isIdentStart, isAlphaChar, decide_eq_true_eq] at h'
  refine ⟨?_, ?_, ?_, ?_, ?_, ?_, ?_⟩
  · rintro rfl; revert h'; decide
  · rintro rfl; revert h'; decide
  · rintro rfl; revert h'; decide
  · rintro rfl; revert h'; decide
  · rintro rfl; revert h'; decide
  · simp only [isDigitChar, decide_eq_false_iff_not]
    rcases h' with (⟨h1, h2⟩ | ⟨h1, h2⟩) | rfl
    · omega
    · omega
    · decide
  · simp only [isOpChar, decide_eq_false_iff_not]
    rintro (rfl | rfl | rfl | rfl) <;> exact absurd h (by decide)

theorem identChar_not_space_sep {c : Char} (h : isIdentChar c = true) :
    c ≠ ' ' := by
  rintro rfl; exact absurd h (by decide)

/-! ## Positive matcher lemmas for serialized pieces -/

theorem length_ne_zero_of_ne_nil {w : List Char} (hw : w ≠ []) :
    w.length ≠ 0 := by
  cases w with | nil => exact absurd rfl hw | cons a t => simp

theorem head_not_digit_of_spaced {r : List Char} (hr : SpacedOrEnd r) :
    ∀ c, r.head? = some c → isDigitChar c = false := by
  rcases hr with rfl | ⟨r', rfl⟩
  · intro c hc; cases hc
  · intro c hc; cases hc; decide

theorem numFracLen_spaced {r : List Char} (hr : SpacedOrEnd r) :
    numFracLen r = 0 := by
  rcases hr with rfl | ⟨r', rfl⟩ <;> rfl

theorem numExpLen_spaced {r : List Char} (hr : SpacedOrEnd r) :
    numExpLen r = 0 := by
  rcases hr with rfl | ⟨r', rfl⟩ <;> rfl

theorem numFracLen_dot {b r : List Char} (hb : b ≠ [])
    (hdb : ∀ c ∈ b, isDigitChar c = true)
    (hrd : ∀ c, r.head? = some c → isDigitChar c = false) :
    numFracLen ('.' :: (b ++ r)) = 1 + b.length := by
  have ht : (b ++ r).takeWhile isDigitChar = b := takeWhile_all_append hdb hrd
  rw [numFracLen]
  simp only [ht, if_neg (length_ne_zero_of_ne_nil hb)]

theorem numExpLen_e {c r : List Char} (hc : c ≠ [])
    (hdc : ∀ x ∈ c, isDigitChar x = true)
    (hrd : ∀ x, r.head? = some x → isDigitChar x = false) :
    numExpLen ('e' :: (c ++ r)) = 1 + c.length := by
  have ht : (c ++ r).takeWhile isDigitChar = c := takeWhile_all_append hdc hrd
  cases c with
  | nil => exact absurd rfl hc
  | cons y t =>
      have hy := hdc y (by simp)
      have hy1 : y ≠ '+' := by rintro rfl; exact absurd hy (by decide)
      have hy2 : y ≠ '-' := by rintro rfl; exact absurd hy (by decide)
      rw [show ('e' :: (y :: t ++ r)) = 'e' :: y :: (t ++ r) by simp]
      unfold numExpLen
      split
      · rename_i heq; injection heq with h1 h2; injection h2 with h2 _
        exact absurd h2 hy1
      · rename_i heq; injection heq with h1 h2; injection h2 with h2 _
        exact absurd h2 hy2
      · rename_i rr heq; injection heq with h1 h2
        rw [← h2]
        simp only [← List.cons_append]
        rw [ht]
        simp
      · rename_i heq; injection heq with h1 _; exact absurd h1 (by decide)
      · rename_i heq; injection heq with h1 _; exact absurd h1 (by decide)
      · rename_i heq; injection heq with h1 _; exact absurd h1 (by decide)
      · rename_i h1 h2 h3 h4 h5 h6
        exact absurd rfl (h3 (y :: (t ++ r)))

theorem numExpLen_eneg {c r : List Char} (hc : c ≠ [])
    (hdc : ∀ x ∈ c, isDigitChar x = true)
    (hrd : ∀ x, r.head? = some x → isDigitChar x = false) :
    numExpLen ('e' :: '-' :: (c ++ r)) = 2 + c.length := by
  have ht : (c ++ r).takeWhile isDigitChar = c := takeWhile_all_append hdc hrd
  rw [numExpLen]
  simp only [ht, if_neg (length_ne_zero_of_ne_nil hc)]

theorem matchNumber_digits {w r : List Char} (hw : w ≠ [])
    (hd : ∀ c ∈ w, isDigitChar c = true) (hr : SpacedOrEnd r) :
    matchNumber (w ++ r) = some w.length := by
  have ht : (w ++ r).takeWhile isDigitChar = w :=
    takeWhile_all_append hd (head_not_digit_of_spaced hr)
  have hlen := length_ne_zero_of_ne_nil hw
  rw [matchNumber]
  simp only [ht, List.drop_left, if_neg hlen, numFracLen_spaced hr,
    List.drop_zero, numExpLen_spaced hr, Nat.add_zero]

theorem matchNumber_frac {a b r : List Char} (ha : a ≠ []) (hb : b ≠ [])
    (hda : ∀ c ∈ a, isDigitChar c = true)
    (hdb : ∀ c ∈ b, isDigitChar c = true) (hr : SpacedOrEnd r) :
    matchNumber (a ++ '.' :: (b ++ r)) = some (a.length + (1 + b.length)) := by
  have ht1 : (a ++ '.' :: (b ++ r)).takeWhile isDigitChar = a :=
    takeWhile_all_append hda (by intro c hc; cases hc; decide)
  have hf : numFracLen ('.' :: (b ++ r)) = 1 + b.length :=
    numFracLen_dot hb hdb (head_not_digit_of_spaced hr)
  have hdrop : ('.' :: (b ++ r)).drop (1 + b.length) = r := by
    rw [show ('.' :: (b ++ r)) = ('.' :: b) ++ r by simp]
    rw [show (1 + b.length) = ('.' :: b).length by simp [Nat.add_comm]]
    exact List.drop_left _ _
  rw [matchNumber]
  simp only [ht1, List.drop_left, if_neg (length_ne_zero_of_ne_nil ha), hf,
    hdrop, numExpLen_spaced hr, Nat.add_zero]

theorem matchNumber_frac_expneg {a b c r : List Char} (ha : a ≠ [])
    (hb : b ≠ []) (hc : c ≠ [])
    (hda : ∀ x ∈ a, isDigitChar x = true)
    (hdb : ∀ x ∈ b, isDigitChar x = true)
    (hdc : ∀ x ∈ c, isDigitChar x = true) (hr : SpacedOrEnd r) :
    matchNumber (a ++ '.' :: (b ++ 'e' :: '-' :: (c ++ r))) =
      some (a.length + (1 + b.length) + (2 + c.length)) := by
  have ht1 : (a ++ '.' :: (b ++ 'e' :: '-' :: (c ++ r))).takeWhile isDigitChar
      = a := takeWhile_all_append hda (by intro x hx; cases hx; decide)
  have hf : numFracLen ('.' :: (b ++ 'e' :: '-' :: (c ++ r))) = 1 + b.length :=
    numFracLen_dot hb hdb (by intro x hx; cases hx; decide)
  have hdrop : ('.' :: (b ++ 'e' :: '-' :: (c ++ r))).drop (1 + b.length)
      = 'e' :: '-' :: (c ++ r) := by
    rw [show ('.' :: (b ++ 'e' :: '-' :: (c ++ r)))
          = ('.' :: b) ++ 'e' :: '-' :: (c ++ r) by simp]
    rw [show (1 + b.length) = ('.' :: b).length by simp [Nat.add_comm]]
    exact List.drop_left _ _
  rw [matchNumber]
  simp only [ht1, List.drop_left, if_neg (length_ne_zero_of_ne_nil ha), hf,
    hdrop, numExpLen_eneg hc hdc (head_not_digit_of_spaced hr)]

theorem matchNumber_frac_exp {a b c r : List Char} (ha : a ≠ [])
    (hb : b ≠ []) (hc : c ≠ [])
    (hda : ∀ x ∈ a, isDigitChar x = true)
    (hdb : ∀ x ∈ b, isDigitChar x = true)
    (hdc : ∀ x ∈ c, isDigitChar x = true) (hr : SpacedOrEnd r) :
    matchNumber (a ++ '.' :: (b ++ 'e' :: (c ++ r))) =
      some (a.length + (1 + b.length) + (1 + c.length)) := by
  have ht1 : (a ++ '.' :: (b ++ 'e' :: (c ++ r))).takeWhile isDigitChar
      = a := takeWhile_all_append hda (by intro x hx; cases hx; decide)
  have hf : numFracLen ('.' :: (b ++ 'e' :: (c ++ r))) = 1 + b.length :=
    numFracLen_dot hb hdb (by intro x hx; cases hx; decide)
  have hdrop : ('.' :: (b ++ 'e' :: (c ++ r))).drop (1 + b.length)
      = 'e' :: (c ++ r) := by
    rw [show ('.' :: (b ++ 'e' :: (c ++ r)))
          = ('.' :: b) ++ 'e' :: (c ++ r) by simp]
    rw [show (1 + b.length) = ('.' :: b).length by simp [Nat.add_comm]]
    exact List.drop_left _ _
  rw [matchNumber]
  simp only [ht1, List.drop_left, if_neg (length_ne_zero_of_ne_nil ha), hf,
    hdrop, numExpLen_e hc hdc (head_not_digit_of_spaced hr)]

theorem matchStringAux_content {s : List Char} (hs : ContentLang s) :
    ∀ r, matchStringAux (s ++ '"' :: r) = some (s.length + 1) := by
  induction hs with
  | nil => intro r; rfl
  | esc c rest h1 h2 _ ih =>
      intro r
      have hno : ¬(c = '\n' ∨ c = '\r') := by
        rintro (rfl | rfl)
        · exact h1 rfl
        · exact h2 rfl
      rw [show (('\\' :: c :: rest) ++ '"' :: r)
            = '\\' :: c :: (rest ++ '"' :: r) by simp]
      show (if c = '\n' ∨ c = '\r' then none
            else match matchStringAux (rest ++ '"' :: r) with
                 | some n => some (2 + n)
                 | none => none) = _
      rw [if_neg hno, ih r]
      simp only [Option.some.injEq, List.length_cons]
      omega
  | chr c rest h1 h2 _ ih =>
      intro r
      rw [show ((c :: rest) ++ '"' :: r) = c :: (rest ++ '"' :: r) by simp]
      unfold matchStringAux
      split
      · rename_i heq; exact absurd heq (by simp)
      · rename_i heq; injection heq with hh _; exact absurd hh h1
      · rename_i heq; injection heq with hh _; exact absurd hh h2
      · rename_i heq; injection heq with hh _; exact absurd hh h2
      · rename_i c2 rest2 hn1 hn2 hn3 heq
        injection heq with hh hr2
        subst hh
        subst hr2
        rw [if_neg (by rintro (rfl | rfl); exact h1 rfl; exact h2 rfl), ih r]
        simp only [Option.some.injEq, List.length_cons]
        omega

theorem matchString_content {s r : List Char} (hs : ContentLang s) :
    matchString ('"' :: (s ++ '"' :: r)) = some (s.length + 2) := by
  rw [matchString]
  simp only [matchStringAux_content hs r]
  simp; omega

theorem matchIdentifier_pos {w r : List Char} (hw : IdentShape w)
    (hr : SpacedOrEnd r) : matchIdentifier (w ++ r) = some w.length := by
  obtain ⟨c, w', rfl, hcs, hwc⟩ := hw
  have ht : (w' ++ r).takeWhile isIdentChar = w' :=
    takeWhile_all_append hwc (by
      rcases hr with rfl | ⟨r', rfl⟩
      · intro x hx; cases hx
      · intro x hx; cases hx; decide)
  rw [show ((c :: w') ++ r) = c :: (w' ++ r) by simp]
  rw [matchIdentifier]
  simp [hcs, ht, Nat.add_comm]

/-! ## priMatch composition lemmas for the serialized pieces -/

theorem priMatch_digitHead {cs : List Char} {c : Char}
    (hhead : cs.head? = some c) (hd : isDigitChar c = true) :
    priMatch cs = ((matchNumber cs).map fun n => (TokKind.number, n)) := by
  obtain ⟨hs, h1, h2, h3, h4, h5, h6, h7, h8⟩ := digit_not_identValues hd
  rw [priMatch,
    matchComment_none (by intro x hx; rw [hhead] at hx; cases hx; exact hs),
    matchInclude_none (by intro x hx; rw [hhead] at hx; cases hx; exact h1),
    matchEnvVar_none (by intro x hx; rw [hhead] at hx; cases hx; exact h2),
    matchString_none (by intro x hx; rw [hhead] at hx; cases hx; exact h3)]
  have hnum : matchNumber cs ≠ none := by
    cases cs with
    | nil => cases hhead
    | cons y t =>
        cases hhead
        rw [matchNumber]
        have : ((c :: t).takeWhile isDigitChar).length ≠ 0 := by
          simp [List.takeWhile_cons, hd]
        simp [this]

  match hm : matchNumber cs with
  | none => exact absurd hm hnum
  | some n => simp

theorem priMatch_identHead {w r : List Char} (hw : IdentOk w)
    (hr : SpacedOrEnd r) :
    priMatch (w ++ r) = some (.identifier, w.length) := by
  obtain ⟨hsh, ht, hf, he, hn⟩ := hw
  obtain ⟨c, w', hweq, hcs, hwc⟩ := hsh
  obtain ⟨h1, h2, h3, h4, h5, h6, h7⟩ := identStart_not_special hcs
  have hhead : (w ++ r).head? = some c := by rw [hweq]; rfl
  have hkw : ∀ c ∈ ("true".toList ++ "false".toList ++ "enum".toList ++
      "null".toList), c ≠ ' ' := by decide
  rw [priMatch,
    matchComment_none (by intro x hx; rw [hhead] at hx; cases hx; exact h1),
    matchInclude_none (by intro x hx; rw [hhead] at hx; cases hx; exact h2),
    matchEnvVar_none (by intro x hx; rw [hhead] at hx; cases hx; exact h3),
    matchString_none (by intro x hx; rw [hhead] at hx; cases hx; exact h4),
    matchNumber_none (by intro x hx; rw [hhead] at hx; cases hx; exact h6),
    matchBoolean_none2
      (by rw [prefixOf_append_spaced _ (by decide) hr]; exact ht)
      (by rw [prefixOf_append_spaced _ (by decide) hr]; exact hf),
    matchEnumKw_none2
      (by rw [prefixOf_append_spaced _ (by decide) hr]; exact he),
    matchNullKw_none2
      (by rw [prefixOf_append_spaced _ (by decide) hr]; exact hn),
    matchOperator_none (by intro x hx; rw [hhead] at hx; cases hx; exact h7),
    matchNamespace_none (by intro x hx; rw [hhead] at hx; cases hx; exact h5),
    matchIdentifier_pos ⟨c, w', hweq, hcs, hwc⟩ hr]
  rfl

theorem priMatch_stringTok {s r : List Char} (hs : ContentLang s) :
    priMatch ('"' :: (s ++ '"' :: r)) = some (.stringLit, s.length + 2) := by
  rw [priMatch,
    matchComment_none (by intro x hx; cases hx; decide),
    matchInclude_none (by intro x hx; cases hx; decide),
    matchEnvVar_none (by intro x hx; cases hx; decide),
    matchString_content hs]
  rfl

theorem priMatch_numTok {w r : List Char} (hw : w ≠ [])
    (hd : ∀ x, w.head? = some x → isDigitChar x = true)
    (hm : matchNumber (w ++ r) = some w.length) :
    priMatch (w ++ r) = some (.number, w.length) := by
  cases w with
  | nil => exact absurd rfl hw
  | cons y t =>
      rw [priMatch_digitHead (c := y) (by simp) (hd y rfl), hm]
      rfl

/-! ## Tokenizer step lemmas -/

theorem tokenizeAux_step {k : TokKind} {w r : List Char} {f l col : Nat}
    (hp : priMatch (w ++ r) = some (k, w.length)) (hw : w ≠ [])
    (hs : ∀ x, w.head? = some x → isSpaceChar x = false)
    (hk : k ≠ .comment) :
    tokenizeAuxF (f + 1) (w ++ r) l col =
      consTok ⟨k, w, l, col⟩ (tokenizeAuxF f r l (col + w.length)) := by
  cases w with
  | nil => exact absurd rfl hw
  | cons a w' =>
      have hsa := hs a rfl
      have hp' : priMatch (a :: (w' ++ r)) = some (k, (a :: w').length) := by
        rw [← List.cons_append]; exact hp
      rw [List.cons_append, tokenizeAuxF]
      rw [hsa]
      simp only [Bool.false_eq_true, if_false, hp']
      have htake : (a :: (w' ++ r)).take (a :: w').length = a :: w' := by
        rw [← List.cons_append]; exact List.take_left _ _
      have hdrop : (a :: (w' ++ r)).drop (a :: w').length = r := by
        rw [← List.cons_append]; exact List.drop_left _ _
      rw [htake, hdrop]
      cases tokenizeAuxF f r l (col + (a :: w').length) with
      | error e => rfl
      | ok ts => simp [consTok, hk]

theorem tokenizeAux_space {f : Nat} {r : List Char} {l col : Nat} :
    tokenizeAuxF (f + 1) (' ' :: r) l col = tokenizeAuxF f r l (col + 1) :=
  rfl

theorem tokenizeAux_pieces (ps : List (TokKind × List Char))
    (hg : ∀ p ∈ ps, GoodPiece p) :
    ∀ l col f, (joinSpace (ps.map Prod.snd)).length + 1 ≤ f →
    ∃ ts : List Tok, tokenizeAuxF f (joinSpace (ps.map Prod.snd)) l col =
      .ok ts ∧ ts.map projTok = ps ++ [(.eof, [])] := by
  induction ps with
  | nil =>
      intro l col f hf
      match f, hf with
      | f' + 1, _ => exact ⟨[⟨.eof, [], l, col⟩], rfl, rfl⟩
  | cons p ps' ih =>
      intro l col f hf
      obtain ⟨hne, hsp, hnc, hpm⟩ := hg p (by simp)
      cases ps' with
      | nil =>
          simp only [List.map_cons, List.map_nil, joinSpace] at hf ⊢
          have hp0 : priMatch (p.2 ++ []) = some (p.1, p.2.length) :=
            hpm [] (Or.inl rfl)
          rw [List.append_nil] at hp0
          match f, hf with
          | f' + 1, hf =>
              have hstep := @tokenizeAux_step p.1 p.2 [] f' l col
                (by rw [List.append_nil]; exact hp0) hne hsp hnc
              rw [List.append_nil] at hstep
              rw [hstep]
              have hf' : 1 ≤ f' := by
                have := length_ne_zero_of_ne_nil hne
                omega
              match f', hf' with
              | f'' + 1, _ =>
                  exact ⟨[⟨p.1, p.2, l, col⟩, ⟨.eof, [], l, col + p.2.length⟩],
                    rfl, by simp [projTok]⟩
      | cons q ps'' =>
          have htext : joinSpace ((p :: q :: ps'').map Prod.snd)
              = p.2 ++ ' ' :: joinSpace ((q :: ps'').map Prod.snd) := by
            simp only [List.map_cons, joinSpace]
          rw [htext] at hf ⊢
          match f, hf with
          | f' + 1, hf =>
              rw [tokenizeAux_step
                (hpm _ (Or.inr ⟨_, rfl⟩)) hne hsp hnc]
              have hplen := length_ne_zero_of_ne_nil hne
              have hf1 : 1 ≤ f' := by
                simp only [List.length_append, List.length_cons] at hf; omega
              match f', hf1 with
              | f'' + 1, _ =>
                  rw [tokenizeAux_space]
                  have hlen : (joinSpace ((q :: ps'').map Prod.snd)).length + 1
                      ≤ f'' := by
                    simp only [List.length_append, List.length_cons] at hf
                    omega
                  obtain ⟨ts, hts, hmap⟩ :=
                    ih (fun x hx => hg x (by simp [hx])) l
                      (col + p.2.length + 1) f'' hlen
                  rw [hts]
                  exact ⟨⟨p.1, p.2, l, col⟩ :: ts, rfl, by
                    simp [projTok, hmap]⟩

/-! ## Decimal digit strings -/

theorem charOfDigit_toNat {d : ℕ} (h : d < 10) :
    (Char.ofNat (48 + d)).toNat = 48 + d := by
  interval_cases d <;> decide

theorem natDigits_all_digits (n : ℕ) :
    ∀ c ∈ natDigits n, isDigitChar c = true := by
  intro c hc
  rw [natDigits] at hc
  split at hc
  · simp at hc; subst hc; decide
  · simp only [List.mem_reverse, List.mem_map] at hc
    obtain ⟨d, hd, rfl⟩ := hc
    have hlt : d < 10 := Nat.digits_lt_base (by norm_num) hd
    simp only [isDigitChar, charOfDigit_toNat hlt, decide_eq_true_eq]
    omega

theorem natDigits_ne_nil (n : ℕ) : natDigits n ≠ [] := by
  rw [natDigits]
  split
  · simp
  · rename_i h
    intro hcon
    apply h
    rw [← Nat.digits_eq_nil_iff_eq_zero (b := 10)]
    have hl := congrArg List.length hcon
    simp only [List.length_reverse, List.length_map, List.length_nil] at hl
    exact List.eq_nil_of_length_eq_zero hl

theorem natOfDigits_append_one (xs : List Char) (ch : Char) :
    natOfDigits (xs ++ [ch]) = natOfDigits xs * 10 + (ch.toNat - 48) := by
  rw [natOfDigits, List.foldl_append]
  rfl

theorem natOfDigits_revmap (n : ℕ) :
    natOfDigits (((Nat.digits 10 n).map
      (fun d => Char.ofNat (48 + d))).reverse) = n := by
  induction n using Nat.strong_induction_on with
  | _ n ih =>
      rcases Nat.eq_zero_or_pos n with rfl | hpos
      · simp [natOfDigits]
      · rw [Nat.digits_def' (by norm_num : (1:ℕ) < 10) hpos]
        simp only [List.map_cons, List.reverse_cons]
        rw [natOfDigits_append_one,
          ih (n / 10) (Nat.div_lt_self hpos (by norm_num)),
          charOfDigit_toNat (Nat.mod_lt n (by norm_num))]
        omega

theorem natOfDigits_natDigits (n : ℕ) : natOfDigits (natDigits n) = n := by
  rw [natDigits]
  split
  · rename_i h; subst h; decide
  · exact natOfDigits_revmap n

/-- `natDigits` never contains `.`, `e` or `E` (its characters are
decimal digits), so the parser's NUMBER classification takes the
integer branch on serialized integers. -/
theorem natDigits_no_marker (n : ℕ) :
    ((natDigits n).contains '.' = false) ∧
    ((natDigits n).contains 'e' = false) ∧
    ((natDigits n).contains 'E' = false) := by
  refine ⟨?_, ?_, ?_⟩ <;>
  · rw [List.contains_eq_any_beq, List.any_eq_false]
    intro c hc
    have hd := natDigits_all_digits n c hc
    simp only [beq_iff_eq]
    rintro rfl
    exact absurd hd (by decide)

theorem stollM_natDigits {n : ℕ} (h : n < 2 ^ 63) :
    stollM (natDigits n) = some (n : ℤ) := by
  have hall := natDigits_all_digits n
  have ht : (natDigits n).takeWhile isDigitChar = natDigits n := by
    have := takeWhile_all_append (p := isDigitChar) (r := []) hall
      (by intro c hc; cases hc)
    rwa [List.append_nil] at this
  rw [stollM]
  simp only [ht, natOfDigits_natDigits]
  simp only [List.isEmpty_iff]
  rw [if_neg (by simp [natDigits_ne_nil n])]
  rw [if_pos ((by norm_num : (2:ℕ) ^ 63 = 9223372036854775808) ▸ h)]

/-! ## Exact decimal rationals -/

theorem isDecimal_nonneg {q : ℚ} (h : IsDecimal q) : 0 ≤ q := by
  obtain ⟨n, k, rfl⟩ := h
  positivity

theorem isDecimal_den_dvd {q : ℚ} (h : IsDecimal q) : q.den ∣ 10 ^ q.den := by
  obtain ⟨n, k, hq⟩ := h
  have hdvd : q.den ∣ 10 ^ k := by
    have h1 : q = Rat.divInt (n : ℤ) ((10 : ℤ) ^ k) := by
      rw [Rat.divInt_eq_div, hq]
      push_cast
      ring
    have := Rat.den_dvd (n : ℤ) ((10 : ℤ) ^ k)
    rw [← h1] at this
    have h2 : ((q.den : ℤ)) ∣ ((10 ^ k : ℕ) : ℤ) := by exact_mod_cast this
    exact_mod_cast h2
  have hd0 : q.den ≠ 0 := q.den_nz
  rw [← Nat.factorization_le_iff_dvd hd0 (pow_ne_zero _ (by norm_num))]
  rw [Finsupp.le_def]
  intro p
  rw [Nat.factorization_pow]
  simp only [Finsupp.smul_apply, smul_eq_mul]
  rcases Nat.eq_zero_or_pos (q.den.factorization p) with hz | hpos
  · simp [hz]
  · have hpne : q.den.factorization p ≠ 0 := by omega
    have hp : p.Prime := by
      have hsupp : p ∈ q.den.factorization.support :=
        Finsupp.mem_support_iff.mpr hpne
      rw [Nat.support_factorization] at hsupp
      exact Nat.prime_of_mem_primeFactors hsupp
    have hpd : p ∣ q.den := Nat.dvd_of_factorization_pos hpne
    have hp10 : p ∣ 10 := hp.dvd_of_dvd_pow (hpd.trans hdvd)
    have h10p : 0 < (10 : ℕ).factorization p :=
      hp.factorization_pos_of_dvd (by norm_num) hp10
    have hlt : q.den.factorization p < q.den := Nat.factorization_lt p hd0
    calc q.den.factorization p ≤ q.den := le_of_lt hlt
      _ ≤ q.den * (10 : ℕ).factorization p :=
          Nat.le_mul_of_pos_right _ h10p

theorem takeWhile_all {p : Char → Bool} {w : List Char}
    (hw : ∀ c ∈ w, p c = true) : w.takeWhile p = w := by
  have := takeWhile_all_append (p := p) (r := []) hw (by intro c hc; cases hc)
  rwa [List.append_nil] at this

theorem isDecimal_mul_pow {q : ℚ} (h : IsDecimal q) :
    (((q * 10 ^ q.den).num.toNat : ℕ) : ℚ) = q * 10 ^ q.den ∧
    0 ≤ (q * 10 ^ q.den).num := by
  obtain ⟨t, ht⟩ := isDecimal_den_dvd h
  have hden : ((q.den : ℚ)) ≠ 0 := by
    have := q.den_pos; positivity
  have hmul : q * (q.den : ℚ) = (q.num : ℚ) := by
    have h' := Rat.num_div_den q
    rw [div_eq_iff hden] at h'
    exact h'.symm
  have hq' : q * 10 ^ q.den = ((q.num * t : ℤ) : ℚ) := by
    calc q * 10 ^ q.den
        = q * ((q.den * t : ℕ) : ℚ) := by
          rw [show ((10 : ℚ) ^ q.den) = ((10 ^ q.den : ℕ) : ℚ) by
                push_cast; ring, ht]
      _ = (q * (q.den : ℚ)) * (t : ℚ) := by push_cast; ring
      _ = (q.num : ℚ) * (t : ℚ) := by rw [hmul]
      _ = ((q.num * t : ℤ) : ℚ) := by push_cast; ring
  have hnum : (q * 10 ^ q.den).num = q.num * t := by
    rw [hq', Rat.num_intCast]
  have hnn : 0 ≤ (q * 10 ^ q.den).num := by
    rw [hnum]
    have h1 : 0 ≤ q.num := Rat.num_nonneg.mpr (isDecimal_nonneg h)
    positivity
  refine ⟨?_, hnn⟩
  rw [hnum, hq']
  exact_mod_cast congrArg (Int.cast : ℤ → ℚ)
    (Int.toNat_of_nonneg (hnum ▸ hnn))

theorem doubleLit_eq {q : ℚ} (h : IsDecimal q) :
    doubleLit q = natDigits (q * 10 ^ q.den).num.toNat ++
      '.' :: '0' :: 'e' :: '-' :: natDigits q.den := by
  rw [doubleLit]
  rw [if_pos]
  exact isDecimal_mul_pow h

theorem stodM_doubleLit {q : ℚ} (h : IsDecimal q) :
    stodM (doubleLit q) = some q := by
  obtain ⟨hm, hnn⟩ := isDecimal_mul_pow h
  set m := (q * 10 ^ q.den).num.toNat with hmdef
  set D := q.den with hDdef
  rw [doubleLit_eq h]
  have hds : ((natDigits m ++ '.' :: '0' :: 'e' :: '-' :: natDigits D)
      |>.takeWhile isDigitChar) = natDigits m :=
    takeWhile_all_append (natDigits_all_digits m)
      (by intro c hc; cases hc; decide)
  have hdrop : ((natDigits m ++ '.' :: '0' :: 'e' :: '-' :: natDigits D)
      |>.drop (natDigits m).length) =
      '.' :: '0' :: 'e' :: '-' :: natDigits D :=
    List.drop_left _ _
  have hB : (natDigits D).takeWhile isDigitChar = natDigits D :=
    takeWhile_all (natDigits_all_digits D)
  rw [stodM]
  simp only [hds, hdrop]
  rw [if_neg (by simp [natDigits_ne_nil m])]
  have hfds : stodFds ('.' :: '0' :: 'e' :: '-' :: natDigits D) = ['0'] := rfl
  have hfl : numFracLen ('.' :: '0' :: 'e' :: '-' :: natDigits D) = 2 := rfl
  rw [hfds, hfl]
  simp only [List.drop_succ_cons, List.drop_zero]
  have hexp : stodExpV ('e' :: '-' :: natDigits D) = -(D : ℤ) := by
    show (let eds := (natDigits D).takeWhile isDigitChar
          if eds.isEmpty then (0 : ℤ) else -(natOfDigits eds : ℤ)) = -(D : ℤ)
    rw [hB]
    rw [if_neg (by simp [natDigits_ne_nil D])]
    rw [natOfDigits_natDigits]
  rw [hexp, natOfDigits_natDigits]
  have h0 : natOfDigits ['0'] = 0 := rfl
  rw [h0]
  congr 1
  rw [hm]
  push_cast
  rw [zero_div, add_zero]
  rw [← zpow_natCast (10 : ℚ) D, mul_assoc,
    ← zpow_add₀ (by norm_num : (10 : ℚ) ≠ 0)]
  simp

theorem stodM_frac {a b : List Char} (ha : a ≠ []) (hb : b ≠ [])
    (hda : ∀ c ∈ a, isDigitChar c = true)
    (hdb : ∀ c ∈ b, isDigitChar c = true) :
    stodM (a ++ '.' :: b) =
      some ((natOfDigits a : ℚ) + (natOfDigits b : ℚ) / 10 ^ b.length) := by
  have hds : (a ++ '.' :: b).takeWhile isDigitChar = a :=
    takeWhile_all_append hda (by intro c hc; cases hc; decide)
  have hB : b.takeWhile isDigitChar = b := takeWhile_all hdb
  rw [stodM]
  simp only [hds, List.drop_left]
  rw [if_neg (by simp [ha])]
  have hfds : stodFds ('.' :: b) = b := by
    show b.takeWhile isDigitChar = b
    exact hB
  have hfl : numFracLen ('.' :: b) = 1 + b.length := by
    rw [numFracLen]
    simp only [hB, if_neg (length_ne_zero_of_ne_nil hb)]
  rw [hfds, hfl]
  have hdrop2 : ('.' :: b).drop (1 + b.length) = [] := by
    rw [show 1 + b.length = ('.' :: b).length by simp [Nat.add_comm]]
    exact List.drop_length _
  rw [hdrop2]
  show some (((natOfDigits a : ℚ) + (natOfDigits b : ℚ) / 10 ^ b.length)
      * 10 ^ (0 : ℤ)) = _
  rw [zpow_zero, mul_one]

/-- Every value `std::stod` can compute from a token is a nonnegative
decimal rational. -/
theorem decimal_closed (A B L : ℕ) (E : ℤ) :
    IsDecimal (((A : ℚ) + (B : ℚ) / 10 ^ L) * 10 ^ E) := by
  rcases le_or_lt 0 E with hE | hE
  · refine ⟨(A * 10 ^ L + B) * 10 ^ E.toNat, L, ?_⟩
    have hEe : E = (E.toNat : ℤ) := (Int.toNat_of_nonneg hE).symm
    rw [hEe, zpow_natCast]
    push_cast
    field_simp
  · refine ⟨A * 10 ^ L + B, L + E.natAbs, ?_⟩
    have hEeq : E = -(E.natAbs : ℤ) := by omega
    rw [hEeq, zpow_neg, zpow_natCast]
    have h10L : ((10 : ℚ) ^ L) ≠ 0 := by positivity
    have hsplit : (A : ℚ) + (B : ℚ) / 10 ^ L
        = ((A * 10 ^ L + B : ℕ) : ℚ) / 10 ^ L := by
      rw [eq_div_iff h10L, add_mul, div_mul_cancel₀ _ h10L]
      push_cast
      ring
    rw [hsplit, ← div_eq_mul_inv, div_div, ← pow_add]
    have hnn : ((-(E.natAbs : ℤ)).natAbs) = E.natAbs := by omega
    rw [hnn]

theorem stodM_isDecimal {w : List Char} {q : ℚ} (h : stodM w = some q) :
    IsDecimal q := by
  rw [stodM] at h
  split at h
  · cases h
  · rw [Option.some.injEq] at h
    exact h ▸ decimal_closed _ _ _ _

theorem stollM_sound {w : List Char} {z : ℤ} (h : stollM w = some z) :
    0 ≤ z ∧ z < 2 ^ 63 := by
  rw [stollM] at h
  split at h
  · cases h
  · split at h
    · rw [Option.some.injEq] at h
      subst h
      constructor
      · positivity
      · rename_i hb
        exact_mod_cast hb
    · cases h

/-! ## The serialized pieces re-lex to themselves -/

theorem good_null : GoodPiece (.nullKw, "null".toList) :=
  ⟨by decide, by intro c hc; cases hc; decide, by decide, fun r _ => rfl⟩

theorem good_true : GoodPiece (.boolean, "true".toList) :=
  ⟨by decide, by intro c hc; cases hc; decide, by decide, fun r _ => rfl⟩

theorem good_false : GoodPiece (.boolean, "false".toList) :=
  ⟨by decide, by intro c hc; cases hc; decide, by decide, fun r _ => rfl⟩

theorem good_lbrack : GoodPiece (.punctuation, ['[']) :=
  ⟨by decide, by intro c hc; cases hc; decide, by decide, fun r _ => rfl⟩

theorem good_rbrack : GoodPiece (.punctuation, [']']) :=
  ⟨by decide, by intro c hc; cases hc; decide, by decide, fun r _ => rfl⟩

theorem good_lbrace : GoodPiece (.punctuation, lbrace) :=
  ⟨by decide, by intro c hc; cases hc; decide, by decide, fun r _ => rfl⟩

theorem good_rbrace : GoodPiece (.punctuation, rbrace) :=
  ⟨by decide, by intro c hc; cases hc; decide, by decide, fun r _ => rfl⟩

theorem good_comma : GoodPiece (.punctuation, [',']) :=
  ⟨by decide, by intro c hc; cases hc; decide, by decide, fun r _ => rfl⟩

theorem good_semi : GoodPiece (.punctuation, [';']) :=
  ⟨by decide, by intro c hc; cases hc; decide, by decide, fun r _ => rfl⟩

theorem good_eq : GoodPiece (.punctuation, ['=']) :=
  ⟨by decide, by intro c hc; cases hc; decide, by decide, fun r _ => rfl⟩

theorem good_intDigits {n : ℤ} (h0 : 0 ≤ n) :
    GoodPiece (.number, intDigits n) := by
  have hrep : intDigits n = natDigits n.toNat := by
    rw [intDigits, if_neg (by omega)]
  rw [hrep]
  refine ⟨natDigits_ne_nil _, ?_, by simp, ?_⟩
  · intro c hc
    cases hn : natDigits n.toNat with
    | nil => exact absurd hn (natDigits_ne_nil _)
    | cons y t =>
        rw [hn] at hc
        cases hc
        exact not_space_of_digit (natDigits_all_digits _ _ (by rw [hn]; simp))
  · intro r hr
    refine priMatch_numTok (natDigits_ne_nil _) ?_
      (matchNumber_digits (natDigits_ne_nil _) (natDigits_all_digits _) hr)
    intro x hx
    cases hn : natDigits n.toNat with
    | nil => exact absurd hn (natDigits_ne_nil _)
    | cons y t =>
        rw [hn] at hx
        cases hx
        exact natDigits_all_digits _ _ (by rw [hn]; simp)

theorem good_doubleLit {q : ℚ} (h : IsDecimal q) :
    GoodPiece (.number, doubleLit q) := by
  rw [doubleLit_eq h]
  set m := (q * 10 ^ q.den).num.toNat
  set D := q.den
  have hshape : natDigits m ++ '.' :: '0' :: 'e' :: '-' :: natDigits D
      = natDigits m ++ '.' :: (['0'] ++ 'e' :: '-' :: natDigits D) := by simp
  refine ⟨by simp [natDigits_ne_nil m], ?_, by simp, ?_⟩
  · intro c hc
    cases hn : natDigits m with
    | nil => exact absurd hn (natDigits_ne_nil _)
    | cons y t =>
        rw [hn] at hc
        cases hc
        exact not_space_of_digit (natDigits_all_digits _ _ (by rw [hn]; simp))
  · intro r hr
    have hre : (natDigits m ++ '.' :: '0' :: 'e' :: '-' :: natDigits D) ++ r
        = natDigits m ++ '.' :: (['0'] ++ 'e' :: '-' :: (natDigits D ++ r)) :=
      by simp
    have hm := matchNumber_frac_expneg (r := r) (natDigits_ne_nil m)
      (by simp : (['0'] : List Char) ≠ []) (natDigits_ne_nil D)
      (natDigits_all_digits m) (by intro x hx; simp at hx; subst hx; decide)
      (natDigits_all_digits D) hr
    rw [← hre] at hm
    have hlen : (natDigits m ++ '.' :: '0' :: 'e' :: '-' :: natDigits D).length
        = (natDigits m).length + (1 + 1) + (2 + (natDigits D).length) := by
      simp
      omega
    have hm2 : matchNumber
        ((natDigits m ++ '.' :: '0' :: 'e' :: '-' :: natDigits D) ++ r)
        = some ((natDigits m ++ '.' :: '0' :: 'e' :: '-'
            :: natDigits D).length) := by
      rw [hlen]
      simpa using hm
    refine priMatch_numTok (by simp [natDigits_ne_nil m]) ?_ hm2
    intro x hx
    cases hn : natDigits m with
    | nil => exact absurd hn (natDigits_ne_nil _)
    | cons y t =>
        rw [hn, List.cons_append] at hx
        cases hx
        exact natDigits_all_digits _ _ (by rw [hn]; simp)

theorem good_stringLit {s : List Char} (hs : ContentLang s) :
    GoodPiece (.stringLit, '"' :: s ++ ['"']) := by
  refine ⟨by simp, ?_, by simp, ?_⟩
  · intro c hc
    rw [show ('"' :: s ++ ['"']) = '"' :: (s ++ ['"']) by simp] at hc
    cases hc
    decide
  · intro r _
    have hre : ('"' :: s ++ ['"']) ++ r = '"' :: (s ++ '"' :: r) := by simp
    have hl : (('"' :: s ++ ['"'] : List Char)).length = s.length + 2 := by
      simp
    rw [hre, priMatch_stringTok hs]
    show _ = some (TokKind.stringLit, ('"' :: s ++ ['"'] : List Char).length)
    rw [hl]

theorem good_identTok {w : List Char} (hw : IdentOk w) :
    GoodPiece (.identifier, w) := by
  have hw' := hw
  obtain ⟨⟨c, w', hweq, hcs, hwc⟩, _, _, _, _⟩ := hw'
  refine ⟨by rw [hweq]; simp, ?_, by simp, ?_⟩
  · intro x hx
    rw [hweq] at hx
    cases hx
    exact not_space_of_identStart hcs
  · intro r hr
    exact priMatch_identHead hw hr

/-! ## All pieces of a serialized producible value are good -/

theorem serTokensArr_good {es : List CfgppValue}
    (he : ∀ v ∈ es, ∀ p ∈ serTokens v, GoodPiece p) :
    ∀ p ∈ serTokensArr es, GoodPiece p := by
  induction es with
  | nil => intro p hp; cases hp
  | cons v vs ih =>
      intro p hp
      cases vs with
      | nil => exact he v (by simp) p hp
      | cons v2 vs2 =>
          have hp' : p ∈ serTokens v ++
              (TokKind.punctuation, [',']) :: serTokensArr (v2 :: vs2) := hp
          rcases List.mem_append.mp hp' with h1 | h2
          · exact he v (by simp) p h1
          · rcases List.mem_cons.mp h2 with h2 | h3
            · exact h2 ▸ good_comma
            · exact ih (fun u hu => he u (by simp [hu])) p h3

theorem serTokensFlds_good {fs : List (String × CfgppValue)}
    (hk : ∀ q ∈ fs, IdentOk q.1.toList)
    (he : ∀ q ∈ fs, ∀ p ∈ serTokens q.2, GoodPiece p) :
    ∀ p ∈ serTokensFlds fs, GoodPiece p := by
  induction fs with
  | nil => intro p hp; cases hp
  | cons kv fs' ih =>
      intro p hp
      have hp' : p ∈ (TokKind.identifier, kv.1.toList) ::
          (TokKind.punctuation, ['=']) ::
          (serTokens kv.2 ++ (TokKind.punctuation, [';'])
            :: serTokensFlds fs') := hp
      rcases List.mem_cons.mp hp' with h1 | h2
      · exact h1 ▸ good_identTok (hk kv (by simp))
      · rcases List.mem_cons.mp h2 with h2 | h3
        · exact h2 ▸ good_eq
        · rcases List.mem_append.mp h3 with h4 | h5
          · exact he kv (by simp) p h4
          · rcases List.mem_cons.mp h5 with h5 | h6
            · exact h5 ▸ good_semi
            · exact ih (fun u hu => hk u (by simp [hu]))
                (fun u hu => he u (by simp [hu])) p h6

theorem serTokens_good {v : CfgppValue} (hv : Producible v) :
    ∀ p ∈ serTokens v, GoodPiece p := by
  induction hv with
  | null => intro p hp; rw [serTokens] at hp; simp at hp; exact hp ▸ good_null
  | boolean b =>
      intro p hp; rw [serTokens] at hp; simp at hp
      cases b
      · exact hp ▸ good_false
      · exact hp ▸ good_true
  | integer n h0 h1 =>
      intro p hp; rw [serTokens] at hp; simp at hp
      exact hp ▸ good_intDigits h0
  | double q h =>
      intro p hp; rw [serTokens] at hp; simp at hp
      exact hp ▸ good_doubleLit h
  | stringV s h =>
      intro p hp; rw [serTokens] at hp; simp at hp
      exact hp ▸ good_stringLit h
  | enumV s h =>
      intro p hp; rw [serTokens] at hp; simp at hp
      exact hp ▸ good_identTok h
  | array es h ih =>
      intro p hp
      have hp' : p ∈ (TokKind.punctuation, ['[']) ::
          (serTokensArr es ++ [(TokKind.punctuation, [']'])]) := hp
      rcases List.mem_cons.mp hp' with h1 | h2
      · exact h1 ▸ good_lbrack
      · rcases List.mem_append.mp h2 with h3 | h4
        · exact serTokensArr_good ih p h3
        · rw [List.mem_singleton] at h4
          exact h4 ▸ good_rbrack
  | object fs hk hnd hvv ih =>
      intro p hp
      have hp' : p ∈ (TokKind.punctuation, lbrace) ::
          (serTokensFlds fs ++ [(TokKind.punctuation, rbrace)]) := hp
      rcases List.mem_cons.mp hp' with h1 | h2
      · exact h1 ▸ good_lbrace
      · rcases List.mem_append.mp h2 with h3 | h4
        · exact serTokensFlds_good hk ih p h3
        · rw [List.mem_singleton] at h4
          exact h4 ▸ good_rbrace

/-- Tokenizing the serialized form of a producible value succeeds and
yields exactly its token pieces followed by the end-of-file token. -/
theorem tokenize_serialize {v : CfgppValue} (hv : Producible v) :
    ∃ ts : List Tok, cfgppTokenize (serializeChars v) = .ok ts ∧
      ts.map projTok = serTokens v ++ [(.eof, [])] := by
  rw [cfgppTokenize, serializeChars]
  exact tokenizeAux_pieces (serTokens v) (serTokens_good hv) 1 1 _ (le_refl _)

/-! ## Parser helpers for serialized token sequences -/

theorem map_projTok_nil {ts : List Tok} (h : ts.map projTok = []) :
    ts = [] := List.map_eq_nil_iff.mp h

theorem map_projTok_cons {ts : List Tok} {p : TokKind × List Char}
    {ps : List (TokKind × List Char)} (h : ts.map projTok = p :: ps) :
    ∃ t ts', ts = t :: ts' ∧ t.kind = p.1 ∧ t.val = p.2 ∧
      ts'.map projTok = ps := by
  cases ts with
  | nil => cases h
  | cons t ts' =>
      rw [List.map_cons] at h
      injection h with h1 h2
      rw [projTok] at h1
      exact ⟨t, ts', rfl, congrArg Prod.fst h1, congrArg Prod.snd h1, h2⟩

theorem str_mk_toList (s : String) : String.mk s.toList = s := rfl

theorem insertKV_append {m : List (String × CfgppValue)} {k : String}
    {v : CfgppValue} (h : k ∉ m.map Prod.fst) :
    insertKV m k v = m ++ [(k, v)] := by
  induction m with
  | nil => rfl
  | cons q m' ih =>
      rw [insertKV]
      rw [if_neg (by
        intro he
        exact h (by simp [he]))]
      rw [ih (by intro hm; exact h (by simp [hm]))]
      simp

theorem serTokens_ne_nil (v : CfgppValue) : serTokens v ≠ [] := by
  cases v <;> simp [serTokens]

theorem producible_head_ne_rbrack {v : CfgppValue} (hv : Producible v) :
    ∀ p, (serTokens v).head? = some p → p.2 ≠ [']'] := by
  cases hv with
  | null => intro p hp; cases hp; decide
  | boolean b => cases b <;> (intro p hp; cases hp; decide)
  | integer n h0 h1 =>
      intro p hp
      rw [serTokens] at hp
      cases hp
      show ¬(intDigits n = [']'])
      rw [intDigits, if_neg (by omega)]
      intro he
      have := natDigits_all_digits n.toNat ']' (by rw [he]; simp)
      exact absurd this (by decide)
  | double q h =>
      intro p hp
      rw [serTokens] at hp
      cases hp
      show ¬(doubleLit q = [']'])
      rw [doubleLit_eq h]
      intro he
      have hmem : ']' ∈ natDigits (q * 10 ^ q.den).num.toNat ++
          '.' :: '0' :: 'e' :: '-' :: natDigits q.den := by rw [he]; simp
      rcases List.mem_append.mp hmem with hm | hm
      · exact absurd (natDigits_all_digits _ ']' hm) (by decide)
      · have hl := congrArg List.length he
        simp at hl
        omega
  | stringV s h =>
      intro p hp
      rw [serTokens] at hp
      cases hp
      show ¬('"' :: s.toList ++ ['"'] = [']'])
      intro he
      injection he with h1 _
      cases h1
  | enumV s h =>
      intro p hp
      rw [serTokens] at hp
      cases hp
      obtain ⟨⟨c, w', hweq, hcs, _⟩, _⟩ := h
      show ¬(s.toList = [']'])
      rw [hweq]
      intro he
      injection he with h1 _
      rw [h1] at hcs
      exact absurd hcs (by decide)
  | array es hh =>
      intro p hp
      rw [serTokens] at hp
      cases hp
      decide
  | object fs hk hnd hvv =>
      intro p hp
      rw [serTokens] at hp
      cases hp
      decide

theorem identOk_ne_rbrace {w : List Char} (h : IdentOk w) : w ≠ rbrace := by
  obtain ⟨⟨c, w', hweq, hcs, _⟩, _⟩ := h
  rw [hweq]
  intro he
  injection he with h1 _
  rw [h1] at hcs
  exact absurd hcs (by decide)

/-! ## The serialized tokens parse back to the value -/

theorem parseElems_step {f : Nat} {acc : List CfgppValue} {v : CfgppValue}
    {ts rest2 : List Tok} (hts : ts ≠ [])
    (hhead : ∀ t, ts.head? = some t → ¬(t.val = [']']))
    (hpv : parseValueF f ts = .okr v rest2) :
    parseElemsF (f + 1) acc ts =
      if rest2.head?.map Tok.val = some [','] then
        parseElemsF f (acc ++ [v]) rest2.tail
      else parseElemsF f (acc ++ [v]) rest2 := by
  cases ts with
  | nil => exact absurd rfl hts
  | cons t r =>
      simp only [parseElemsF]
      rw [if_neg (hhead t rfl), hpv]

theorem parseElems_close {f : Nat} {acc : List CfgppValue} {tb : Tok}
    {rest : List Tok} (htb : tb.val = [']']) :
    parseElemsF (f + 1) acc (tb :: rest) = .okr (.array acc) rest := by
  simp only [parseElemsF]
  rw [if_pos htb]
  simp

theorem parse_elems_ser (es : List CfgppValue)
    (hes : ∀ u ∈ es, Producible u)
    (hparse : ∀ u ∈ es, ∀ ts rest f, ts.map projTok = serTokens u →
      RestOk rest → 2 * ts.length + 2 ≤ f →
      parseValueF f (ts ++ rest) = .okr u rest) :
    ∀ acc ts tb rest f, ts.map projTok = serTokensArr es →
      tb.val = [']'] → 2 * ts.length + 3 ≤ f →
      parseElemsF f acc (ts ++ tb :: rest) = .okr (.array (acc ++ es)) rest
    := by
  induction es with
  | nil =>
      intro acc ts tb rest f hmap htb hf
      rw [map_projTok_nil hmap]
      match f, hf with
      | f' + 1, _ =>
          rw [List.nil_append, parseElems_close htb]
          simp
  | cons u us ih =>
      intro acc ts tb rest f hmap htb hf
      cases us with
      | nil =>
          have hmap' : ts.map projTok = serTokens u := hmap
          have hne : ts ≠ [] := by
            intro hcon
            rw [hcon] at hmap'
            exact serTokens_ne_nil u hmap'.symm
          have hhead : ∀ t, ts.head? = some t → ¬(t.val = [']']) := by
            intro t ht
            cases ts with
            | nil => cases ht
            | cons t0 ts0 =>
                cases ht
                cases hts : serTokens u with
                | nil => exact absurd hts (serTokens_ne_nil u)
                | cons p ps =>
                    rw [hts] at hmap'
                    obtain ⟨t1, ts1, heq, hk1, hv1, _⟩ :=
                      map_projTok_cons hmap'
                    injection heq with he1 he2
                    rw [he1, hv1]
                    exact producible_head_ne_rbrack (hes u (by simp)) p
                      (by rw [hts]; rfl)
          match f, hf with
          | f' + 1, hf =>
              have hpv := hparse u (by simp) ts (tb :: rest) f' hmap'
                (by rw [RestOk]; simp [htb]; decide)
                (by omega)
              rw [parseElems_step (by
                    intro hcon
                    exact hne (List.append_eq_nil.mp hcon).1)
                  (by
                    intro t ht
                    cases ts with
                    | nil => exact absurd rfl hne
                    | cons t0 ts0 => cases ht; exact hhead _ rfl)
                  hpv]
              rw [if_neg (by simp [htb])]
              have hf2 : 1 ≤ f' := by omega
              match f', hf2 with
              | f'' + 1, _ =>
                  exact parseElems_close htb
      | cons u2 us2 =>
          have hmap' : ts.map projTok = serTokens u ++
              ((TokKind.punctuation, [',']) :: serTokensArr (u2 :: us2)) :=
            hmap
          obtain ⟨ts₁, ts₂', hsplit, hm1, hm2⟩ :=
            List.map_eq_append_iff.mp hmap'
          obtain ⟨tc, ts₂, rfl, hck, hcval, hm3⟩ := map_projTok_cons hm2
          subst hsplit
          have hne : ts₁ ≠ [] := by
            intro hcon
            rw [hcon] at hm1
            exact serTokens_ne_nil u hm1.symm
          have hhead : ∀ t, ts₁.head? = some t → ¬(t.val = [']']) := by
            intro t ht
            cases ts₁ with
            | nil => cases ht
            | cons t0 ts0 =>
                cases ht
                cases hts : serTokens u with
                | nil => exact absurd hts (serTokens_ne_nil u)
                | cons p ps =>
                    rw [hts] at hm1
                    obtain ⟨t1, ts1, heq, hk1, hv1, _⟩ := map_projTok_cons hm1
                    injection heq with he1 he2
                    rw [he1, hv1]
                    exact producible_head_ne_rbrack (hes u (by simp)) p
                      (by rw [hts]; rfl)
          match f, hf with
          | f' + 1, hf =>
              have hassoc : ((ts₁ ++ tc :: ts₂)) ++ tb :: rest
                  = ts₁ ++ (tc :: (ts₂ ++ tb :: rest)) := by simp
              rw [hassoc]
              have hpv := hparse u (by simp) ts₁
                (tc :: (ts₂ ++ tb :: rest)) f' hm1
                (by rw [RestOk]; simp [hcval]; decide)
                (by simp at hf ⊢; omega)
              rw [parseElems_step (by
                    intro hcon
                    exact hne (List.append_eq_nil.mp hcon).1)
                  (by
                    intro t ht
                    cases ts₁ with
                    | nil => exact absurd rfl hne
                    | cons t0 ts0 => cases ht; exact hhead _ rfl)
                  hpv]
              rw [if_pos (by simp [hcval])]
              simp only [List.tail_cons]
              have hrec := ih (fun w hw => hes w (by simp [hw]))
                (fun w hw => hparse w (by simp [hw]))
                (acc ++ [u]) ts₂ tb rest f' hm3 htb
                (by simp at hf ⊢; omega)
              rw [hrec]
              simp

theorem parseFields_step {f : Nat} {acc : List (String × CfgppValue)}
    {tk te tsemi : Tok} {r2 r3 : List Tok} {u : CfgppValue}
    (hkk : tk.kind = .identifier) (hkne : ¬(tk.val = rbrace))
    (hev : te.val = ['='])
    (hpv : parseValueF f r2 = .okr u (tsemi :: r3))
    (hsemi : tsemi.val = [';']) :
    parseFieldsF (f + 1) acc (tk :: te :: r2) =
      parseFieldsF f (insertKV acc (String.mk tk.val) u) r3 := by
  simp only [parseFieldsF]
  rw [if_neg hkne, if_pos hkk, if_pos hev, hpv]
  simp only [if_pos hsemi]

theorem parseFields_close {f : Nat} {acc : List (String × CfgppValue)}
    {tb : Tok} {rest : List Tok} (htb : tb.val = rbrace) :
    parseFieldsF (f + 1) acc (tb :: rest) = .okr (.object acc) rest := by
  simp only [parseFieldsF]
  rw [if_pos htb]

theorem parse_fields_ser (fs : List (String × CfgppValue))
    (hprod : ∀ q ∈ fs, Producible q.2)
    (hkeys : ∀ q ∈ fs, IdentOk q.1.toList)
    (hnd : (fs.map Prod.fst).Nodup)
    (hparse : ∀ q ∈ fs, ∀ ts rest f, ts.map projTok = serTokens q.2 →
      RestOk rest → 2 * ts.length + 2 ≤ f →
      parseValueF f (ts ++ rest) = .okr q.2 rest) :
    ∀ acc ts tb rest f, ts.map projTok = serTokensFlds fs →
      tb.val = rbrace →
      (∀ k ∈ fs.map Prod.fst, k ∉ acc.map Prod.fst) →
      2 * ts.length + 3 ≤ f →
      parseFieldsF f acc (ts ++ tb :: rest) = .okr (.object (acc ++ fs)) rest
    := by
  induction fs with
  | nil =>
      intro acc ts tb rest f hmap htb hdisj hf
      rw [map_projTok_nil hmap]
      match f, hf with
      | f' + 1, _ =>
          rw [List.nil_append, parseFields_close htb]
          simp
  | cons kv fs' ih =>
      intro acc ts tb rest f hmap htb hdisj hf
      have hmap' : ts.map projTok = (TokKind.identifier, kv.1.toList) ::
          (TokKind.punctuation, ['=']) ::
          (serTokens kv.2 ++ (TokKind.punctuation, [';'])
            :: serTokensFlds fs') := hmap
      obtain ⟨tk, tsA, rfl, hkk, hkv, hm2⟩ := map_projTok_cons hmap'
      obtain ⟨te, tsB, rfl, hek, hev, hm3⟩ := map_projTok_cons hm2
      obtain ⟨tsv, tsC, hsplit, hm4, hm5⟩ := List.map_eq_append_iff.mp hm3
      obtain ⟨tsemi, tsD, rfl, hsk, hsv, hm6⟩ := map_projTok_cons hm5
      subst hsplit
      match f, hf with
      | f' + 1, hf =>
          have hassoc : ((tk :: te :: (tsv ++ tsemi :: tsD)) ++ tb :: rest)
              = tk :: te :: (tsv ++ (tsemi :: (tsD ++ tb :: rest))) := by
            simp
          rw [hassoc]
          have hpv := hparse kv (by simp) tsv
            (tsemi :: (tsD ++ tb :: rest)) f' hm4
            (by rw [RestOk]; simp [hsv]; decide)
            (by simp at hf ⊢; omega)
          have hnd2 : kv.1 ∉ fs'.map Prod.fst ∧ (fs'.map Prod.fst).Nodup :=
            List.nodup_cons.mp (by simpa using hnd)
          rw [parseFields_step hkk
              (by rw [hkv]; exact identOk_ne_rbrace (hkeys kv (by simp)))
              hev hpv hsv]
          rw [hkv, str_mk_toList,
              insertKV_append (hdisj kv.1 (by simp))]
          have hrec := ih (fun q hq => hprod q (List.mem_cons_of_mem _ hq))
            (fun q hq => hkeys q (List.mem_cons_of_mem _ hq))
            hnd2.2
            (fun q hq => hparse q (List.mem_cons_of_mem _ hq))
            (acc ++ [(kv.1, kv.2)]) tsD tb rest f' hm6 htb
            (by
              intro k hk
              simp only [List.map_append, List.map_cons, List.map_nil]
              intro hmem
              rcases List.mem_append.mp hmem with hA | hB
              · exact hdisj k (by
                  rw [List.map_cons]
                  exact List.mem_cons_of_mem _ hk) hA
              · simp at hB
                exact hnd2.1 (hB ▸ hk))
            (by simp at hf ⊢; omega)
          rw [hrec]
          simp

/-! ## Single-step reductions of `parseValueF` by token kind -/

theorem parseValue_null_step {f : Nat} {t : Tok} {rest : List Tok}
    (hk : t.kind = .nullKw) :
    parseValueF (f + 1) (t :: rest) = .okr .null rest := by
  simp only [parseValueF]
  rw [hk]

theorem parseValue_bool_step {f : Nat} {t : Tok} {rest : List Tok}
    (hk : t.kind = .boolean) :
    parseValueF (f + 1) (t :: rest) =
      .okr (.boolean (t.val = "true".toList)) rest := by
  simp only [parseValueF]
  rw [hk]

theorem parseValue_string_step {f : Nat} {t : Tok} {rest : List Tok}
    (hk : t.kind = .stringLit) :
    parseValueF (f + 1) (t :: rest) =
      (match stripQuotes t.val with
       | none => .exn
       | some s => .okr (.stringV (String.mk s)) rest) := by
  simp only [parseValueF]
  rw [hk]

theorem parseValue_number_step {f : Nat} {t : Tok} {rest : List Tok}
    (hk : t.kind = .number) :
    parseValueF (f + 1) (t :: rest) =
      (if t.val.contains '.' ∨ t.val.contains 'e' ∨ t.val.contains 'E' then
        match stodM t.val with
        | some q => .okr (.double q) rest
        | none => .exn
      else
        match stollM t.val with
        | some n => .okr (.integer n) rest
        | none => .exn) := by
  simp only [parseValueF]
  rw [hk]

theorem parseValue_punct_step {f : Nat} {t : Tok} {rest : List Tok}
    (hk : t.kind = .punctuation) :
    parseValueF (f + 1) (t :: rest) =
      (if t.val = lbrace then parseObjectF f (t :: rest)
       else if t.val = ['['] then parseArrayF f (t :: rest)
       else .failP) := by
  simp only [parseValueF]
  rw [hk]

theorem parseValue_ident_step {f : Nat} {t : Tok} {rest : List Tok}
    (hk : t.kind = .identifier) :
    parseValueF (f + 1) (t :: rest) =
      (if rest.head?.map Tok.val = some lbrace then
        parseObjectF f (t :: rest)
       else .okr (.enumV (String.mk t.val)) rest) := by
  simp only [parseValueF]
  rw [hk]

/-- Completeness half of the round trip: the serialized token pieces of
a producible value parse back to exactly that value, leaving any
continuation that does not start with `\x7b` untouched. -/
theorem parse_ser {v : CfgppValue} (hv : Producible v) :
    ∀ ts rest f, ts.map projTok = serTokens v → RestOk rest →
      2 * ts.length + 2 ≤ f →
      parseValueF f (ts ++ rest) = .okr v rest := by
  induction hv with
  | null =>
      intro ts rest f hmap hro hf
      obtain ⟨t, ts', rfl, hk, hval, hm2⟩ := map_projTok_cons hmap
      obtain rfl := map_projTok_nil hm2
      match f, hf with
      | f' + 1, _ =>
          simp only [List.cons_append, List.nil_append]
          rw [parseValue_null_step hk]
  | boolean b =>
      intro ts rest f hmap hro hf
      obtain ⟨t, ts', rfl, hk, hval, hm2⟩ := map_projTok_cons hmap
      obtain rfl := map_projTok_nil hm2
      match f, hf with
      | f' + 1, _ =>
          simp only [List.cons_append, List.nil_append]
          rw [parseValue_bool_step hk, hval]
          cases b <;> simp
  | integer n h0 h1 =>
      intro ts rest f hmap hro hf
      obtain ⟨t, ts', rfl, hk, hval, hm2⟩ := map_projTok_cons hmap
      obtain rfl := map_projTok_nil hm2
      have hvd : t.val = natDigits n.toNat := by
        rw [hval]
        rw [show intDigits n = natDigits n.toNat from by
          rw [intDigits, if_neg (by omega)]]
      match f, hf with
      | f' + 1, _ =>
          simp only [List.cons_append, List.nil_append]
          rw [parseValue_number_step hk, hvd]
          rw [if_neg (by
            have hm := natDigits_no_marker n.toNat
            simp only [hm.1, hm.2.1, hm.2.2]
            simp)]
          rw [stollM_natDigits (by omega)]
          simp [Int.toNat_of_nonneg h0]
  | double q hq =>
      intro ts rest f hmap hro hf
      obtain ⟨t, ts', rfl, hk, hval, hm2⟩ := map_projTok_cons hmap
      obtain rfl := map_projTok_nil hm2
      have hc : (doubleLit q).contains '.' = true := by
        rw [doubleLit_eq hq, List.contains_eq_any_beq, List.any_eq_true]
        exact ⟨'.', by simp, by simp⟩
      match f, hf with
      | f' + 1, _ =>
          simp only [List.cons_append, List.nil_append]
          rw [parseValue_number_step hk, hval, if_pos (Or.inl hc),
            stodM_doubleLit hq]
  | stringV s hs =>
      intro ts rest f hmap hro hf
      obtain ⟨t, ts', rfl, hk, hval, hm2⟩ := map_projTok_cons hmap
      obtain rfl := map_projTok_nil hm2
      have hsq : stripQuotes ('"' :: s.toList ++ ['"']) = some s.toList := by
        simp only [List.cons_append, stripQuotes, List.dropLast_concat]
      match f, hf with
      | f' + 1, _ =>
          simp only [List.cons_append, List.nil_append]
          rw [parseValue_string_step hk, hval, hsq]
          rfl
  | enumV s hso =>
      intro ts rest f hmap hro hf
      obtain ⟨t, ts', rfl, hk, hval, hm2⟩ := map_projTok_cons hmap
      obtain rfl := map_projTok_nil hm2
      match f, hf with
      | f' + 1, _ =>
          simp only [List.cons_append, List.nil_append]
          rw [parseValue_ident_step hk, if_neg hro, hval]
          rfl
  | array es hes ih =>
      intro ts rest f hmap hro hf
      have hmap' : ts.map projTok = (TokKind.punctuation, ['[']) ::
          (serTokensArr es ++ [(TokKind.punctuation, [']'])]) := hmap
      obtain ⟨tl, ts₁, rfl, hlk, hlv, hm2⟩ := map_projTok_cons hmap'
      obtain ⟨tsm, ts₂, hsplit, hm3, hm4⟩ := List.map_eq_append_iff.mp hm2
      obtain ⟨tb, ts₃, rfl, hbk, hbv, hm5⟩ := map_projTok_cons hm4
      obtain rfl := map_projTok_nil hm5
      subst hsplit
      match f, hf with
      | f' + 1, hf =>
          have hassoc : ((tl :: (tsm ++ [tb])) ++ rest)
              = tl :: (tsm ++ tb :: rest) := by simp
          rw [hassoc, parseValue_punct_step hlk, hlv]
          rw [if_neg (by decide), if_pos rfl]
          match f', (show 2 * tsm.length + 4 ≤ f' by simp at hf; omega) with
          | f'' + 1, hf2 =>
              simp only [parseArrayF]
              rw [if_pos hlv]
              have h := parse_elems_ser es hes ih [] tsm tb rest f''
                hm3 hbv (by omega)
              rw [h]
              simp
  | object fs hkys hnd hvs ih =>
      intro ts rest f hmap hro hf
      have hmap' : ts.map projTok = (TokKind.punctuation, lbrace) ::
          (serTokensFlds fs ++ [(TokKind.punctuation, rbrace)]) := hmap
      obtain ⟨tl, ts₁, rfl, hlk, hlv, hm2⟩ := map_projTok_cons hmap'
      obtain ⟨tsm, ts₂, hsplit, hm3, hm4⟩ := List.map_eq_append_iff.mp hm2
      obtain ⟨tb, ts₃, rfl, hbk, hbv, hm5⟩ := map_projTok_cons hm4
      obtain rfl := map_projTok_nil hm5
      subst hsplit
      match f, hf with
      | f' + 1, hf =>
          have hassoc : ((tl :: (tsm ++ [tb])) ++ rest)
              = tl :: (tsm ++ tb :: rest) := by simp
          rw [hassoc, parseValue_punct_step hlk, hlv, if_pos rfl]
          match f', (show 2 * tsm.length + 5 ≤ f' by simp at hf; omega) with
          | f'' + 1, hf2 =>
              simp only [parseObjectF]
              rw [if_neg (by rw [hlk]; simp)]
              match f'', (show 2 * tsm.length + 4 ≤ f'' by omega) with
              | f''' + 1, hf3 =>
                  simp only [parseObjBodyF]
                  rw [if_pos hlv]
                  have h := parse_fields_ser fs hvs hkys hnd ih [] tsm tb
                    rest f''' hm3 hbv (by intro k _; simp) (by omega)
                  rw [h]
                  simp

/-! ## Invariants of `insertKV` (the `std::unordered_map` assignment) -/

theorem insertKV_mem {m : List (String × CfgppValue)} {k : String}
    {v : CfgppValue} :
    ∀ p ∈ insertKV m k v,
      (p ∈ m ∨ p.2 = v) ∧ (p.1 ∈ m.map Prod.fst ∨ p.1 = k) := by
  induction m with
  | nil =>
      intro p hp
      rw [insertKV, List.mem_singleton] at hp
      subst hp
      exact ⟨Or.inr rfl, Or.inr rfl⟩
  | cons q m' ih =>
      obtain ⟨k', v'⟩ := q
      intro p hp
      rw [insertKV] at hp
      split at hp
      · rcases List.mem_cons.mp hp with rfl | hp'
        · exact ⟨Or.inr rfl, Or.inr rfl⟩
        · exact ⟨Or.inl (List.mem_cons_of_mem _ hp'),
            Or.inl (by
              rw [List.map_cons]
              exact List.mem_cons_of_mem _
                (List.mem_map.mpr ⟨p, hp', rfl⟩))⟩
      · rcases List.mem_cons.mp hp with rfl | hp'
        · exact ⟨Or.inl (List.mem_cons_self _ _), Or.inl (by simp)⟩
        · rcases ih p hp' with ⟨h1, h2⟩
          refine ⟨?_, ?_⟩
          · rcases h1 with h1 | h1
            · exact Or.inl (List.mem_cons_of_mem _ h1)
            · exact Or.inr h1
          · rcases h2 with h2 | h2
            · exact Or.inl (by
                rw [List.map_cons]
                exact List.mem_cons_of_mem _ h2)
            · exact Or.inr h2

theorem insertKV_keys_of_mem {m : List (String × CfgppValue)} {k : String}
    {v : CfgppValue} (h : k ∈ m.map Prod.fst) :
    (insertKV m k v).map Prod.fst = m.map Prod.fst := by
  induction m with
  | nil => cases h
  | cons q m' ih =>
      obtain ⟨k', v'⟩ := q
      rw [insertKV]
      split
      · rename_i he
        simp [he]
      · rename_i he
        have hk : k ∈ m'.map Prod.fst := by
          rw [List.map_cons, List.mem_cons] at h
          rcases h with h | h
          · exact absurd h.symm he
          · exact h
        simp [ih hk]

theorem insertKV_nodup {m : List (String × CfgppValue)} {k : String}
    {v : CfgppValue} (h : (m.map Prod.fst).Nodup) :
    ((insertKV m k v).map Prod.fst).Nodup := by
  by_cases hk : k ∈ m.map Prod.fst
  · rw [insertKV_keys_of_mem hk]
    exact h
  · rw [insertKV_append hk, List.map_append]
    refine List.Nodup.append h (List.nodup_singleton k) ?_
    intro x hx hx'
    rw [List.map_cons, List.map_nil, List.mem_singleton] at hx'
    rw [hx'] at hx
    exact hk hx

/-- All the token kinds on which `parse_value` throws
`Invalid token type`. -/
theorem parseValue_fail_step {f : Nat} {t : Tok} {rest : List Tok}
    (hk : t.kind = .enumKw ∨ t.kind = .includeKw ∨ t.kind = .envVar ∨
      t.kind = .operatorTok ∨ t.kind = .namespaceSep ∨
      t.kind = .whitespace ∨ t.kind = .comment ∨ t.kind = .eof) :
    parseValueF (f + 1) (t :: rest) = .failP := by
  simp only [parseValueF]
  rcases hk with h | h | h | h | h | h | h | h <;> rw [h]

/-- Soundness of the recursive-descent parser: on well-formed lexer
output, every successfully parsed value is producible, and the
leftover token list is drawn from the input. -/
theorem parse_sound : ∀ f,
    (∀ ts v rest, AllWf ts → parseValueF f ts = .okr v rest →
      Producible v ∧ ∀ t ∈ rest, t ∈ ts) ∧
    (∀ ts v rest, AllWf ts → parseObjectF f ts = .okr v rest →
      Producible v ∧ ∀ t ∈ rest, t ∈ ts) ∧
    (∀ ts v rest, AllWf ts → parseObjBodyF f ts = .okr v rest →
      Producible v ∧ ∀ t ∈ rest, t ∈ ts) ∧
    (∀ acc ts v rest, AllWf ts → AccOk acc →
      parseFieldsF f acc ts = .okr v rest →
      Producible v ∧ ∀ t ∈ rest, t ∈ ts) ∧
    (∀ ts v rest, AllWf ts → parseArrayF f ts = .okr v rest →
      Producible v ∧ ∀ t ∈ rest, t ∈ ts) ∧
    (∀ acc ts v rest, AllWf ts → (∀ u ∈ acc, Producible u) →
      parseElemsF f acc ts = .okr v rest →
      Producible v ∧ ∀ t ∈ rest, t ∈ ts) := by
  intro f
  induction f with
  | zero =>
      refine ⟨?_, ?_, ?_, ?_, ?_, ?_⟩
      · intro ts v rest _ heq; cases heq
      · intro ts v rest _ heq; cases heq
      · intro ts v rest _ heq; cases heq
      · intro acc ts v rest _ _ heq; cases heq
      · intro ts v rest _ heq; cases heq
      · intro acc ts v rest _ _ heq; cases heq
  | succ f ih =>
      obtain ⟨ihV, ihO, ihB, ihF, ihA, ihE⟩ := ih
      refine ⟨?_, ?_, ?_, ?_, ?_, ?_⟩
      · -- parse_value
        intro ts v rest hwf heq
        cases ts with
        | nil => simp only [parseValueF] at heq; cases heq
        | cons t r =>
            cases hkind : t.kind with
            | stringLit =>
                rw [parseValue_string_step hkind] at heq
                obtain ⟨sc, hsc, hval⟩ := (hwf t (by simp)).1 hkind
                rw [hval] at heq
                simp only [List.cons_append, stripQuotes,
                  List.dropLast_concat] at heq
                cases heq
                exact ⟨.stringV _ hsc,
                  fun x hx => List.mem_cons_of_mem _ hx⟩
            | number =>
                rw [parseValue_number_step hkind] at heq
                split at heq
                · split at heq
                  · rename_i q hsd
                    cases heq
                    exact ⟨.double _ (stodM_isDecimal hsd),
                      fun x hx => List.mem_cons_of_mem _ hx⟩
                  · cases heq
                · split at heq
                  · rename_i n hsl
                    cases heq
                    obtain ⟨h0, h1⟩ := stollM_sound hsl
                    exact ⟨.integer _ h0 h1,
                      fun x hx => List.mem_cons_of_mem _ hx⟩
                  · cases heq
            | boolean =>
                rw [parseValue_bool_step hkind] at heq
                cases heq
                exact ⟨.boolean _, fun x hx => List.mem_cons_of_mem _ hx⟩
            | nullKw =>
                rw [parseValue_null_step hkind] at heq
                cases heq
                exact ⟨.null, fun x hx => List.mem_cons_of_mem _ hx⟩
            | punctuation =>
                rw [parseValue_punct_step hkind] at heq
                split at heq
                · exact ihO _ _ _ hwf heq
                · split at heq
                  · exact ihA _ _ _ hwf heq
                  · cases heq
            | identifier =>
                rw [parseValue_ident_step hkind] at heq
                split at heq
                · exact ihO _ _ _ hwf heq
                · cases heq
                  exact ⟨.enumV _ ((hwf t (by simp)).2 hkind),
                    fun x hx => List.mem_cons_of_mem _ hx⟩
            | enumKw =>
                rw [parseValue_fail_step (Or.inl hkind)] at heq; cases heq
            | includeKw =>
                rw [parseValue_fail_step (Or.inr (Or.inl hkind))] at heq
                cases heq
            | envVar =>
                rw [parseValue_fail_step
                  (Or.inr (Or.inr (Or.inl hkind)))] at heq
                cases heq
            | operatorTok =>
                rw [parseValue_fail_step
                  (Or.inr (Or.inr (Or.inr (Or.inl hkind))))] at heq
                cases heq
            | namespaceSep =>
                rw [parseValue_fail_step
                  (Or.inr (Or.inr (Or.inr (Or.inr (Or.inl hkind)))))] at heq
                cases heq
            | whitespace =>
                rw [parseValue_fail_step (Or.inr (Or.inr (Or.inr
                  (Or.inr (Or.inr (Or.inl hkind))))))] at heq
                cases heq
            | comment =>
                rw [parseValue_fail_step (Or.inr (Or.inr (Or.inr
                  (Or.inr (Or.inr (Or.inr (Or.inl hkind)))))))] at heq
                cases heq
            | eof =>
                rw [parseValue_fail_step (Or.inr (Or.inr (Or.inr
                  (Or.inr (Or.inr (Or.inr (Or.inr hkind)))))))] at heq
                cases heq
      · -- parse_object
        intro ts v rest hwf heq
        cases ts with
        | nil =>
            simp only [parseObjectF] at heq
            exact ihB [] v rest hwf heq
        | cons t r =>
            simp only [parseObjectF] at heq
            split at heq
            · have h := ihB r v rest
                (fun x hx => hwf x (List.mem_cons_of_mem _ hx)) heq
              exact ⟨h.1, fun x hx => List.mem_cons_of_mem _ (h.2 x hx)⟩
            · exact ihB (t :: r) v rest hwf heq
      · -- the brace check of parse_object
        intro ts v rest hwf heq
        cases ts with
        | nil => simp only [parseObjBodyF] at heq; cases heq
        | cons t r =>
            simp only [parseObjBodyF] at heq
            split at heq
            · have h := ihF [] r v rest
                (fun x hx => hwf x (List.mem_cons_of_mem _ hx))
                ⟨by simp, by simp, by simp⟩ heq
              exact ⟨h.1, fun x hx => List.mem_cons_of_mem _ (h.2 x hx)⟩
            · cases heq
      · -- the field loop of parse_object
        intro acc ts v rest hwf hacc heq
        cases ts with
        | nil => simp only [parseFieldsF] at heq; cases heq
        | cons t r =>
            simp only [parseFieldsF] at heq
            split at heq
            · cases heq
              exact ⟨.object _ hacc.1 hacc.2.1 hacc.2.2,
                fun x hx => List.mem_cons_of_mem _ hx⟩
            · split at heq
              · rename_i hkid
                split at heq
                · rename_i t2 r2
                  split at heq
                  · split at heq
                    · rename_i u rest3 hpv
                      have hu := ihV r2 u rest3
                        (fun x hx => hwf x (List.mem_cons_of_mem _
                          (List.mem_cons_of_mem _ hx))) hpv
                      have hmem3 : ∀ x ∈ rest3, x ∈ t :: t2 :: r2 :=
                        fun x hx => List.mem_cons_of_mem _
                          (List.mem_cons_of_mem _ (hu.2 x hx))
                      have hacc' : AccOk
                          (insertKV acc (String.mk t.val) u) := by
                        have hio : IdentOk t.val :=
                          (hwf t (by simp)).2 hkid
                        refine ⟨?_, insertKV_nodup hacc.2.1, ?_⟩
                        · intro p hp
                          rcases (insertKV_mem p hp).2 with hin | hek
                          · obtain ⟨q, hq, hq1⟩ := List.mem_map.mp hin
                            rw [← hq1]
                            exact hacc.1 q hq
                          · rw [hek]
                            exact hio
                        · intro p hp
                          rcases (insertKV_mem p hp).1 with hin | hev
                          · exact hacc.2.2 p hin
                          · rw [hev]
                            exact hu.1
                      split at heq
                      · rename_i t3 r3
                        split at heq
                        · have h := ihF _ r3 v rest
                            (fun x hx => hwf x (hmem3 x
                              (List.mem_cons_of_mem _ hx))) hacc' heq
                          exact ⟨h.1, fun x hx => hmem3 x
                            (List.mem_cons_of_mem _ (h.2 x hx))⟩
                        · have h := ihF _ (t3 :: r3) v rest
                            (fun x hx => hwf x (hmem3 x hx)) hacc' heq
                          exact ⟨h.1, fun x hx => hmem3 x (h.2 x hx)⟩
                      · have h := ihF _ [] v rest
                          (fun x hx => hwf x (hmem3 x hx)) hacc' heq
                        exact ⟨h.1, fun x hx => hmem3 x (h.2 x hx)⟩
                    · rename_i hne
                      exact (hne _ _ heq).elim
                  · cases heq
                · cases heq
              · cases heq
      · -- parse_array
        intro ts v rest hwf heq
        cases ts with
        | nil => simp only [parseArrayF] at heq; cases heq
        | cons t r =>
            simp only [parseArrayF] at heq
            split at heq
            · have h := ihE [] r v rest
                (fun x hx => hwf x (List.mem_cons_of_mem _ hx))
                (by simp) heq
              exact ⟨h.1, fun x hx => List.mem_cons_of_mem _ (h.2 x hx)⟩
            · cases heq
      · -- the element loop of parse_array
        intro acc ts v rest hwf hacc heq
        cases ts with
        | nil => simp only [parseElemsF] at heq; cases heq
        | cons t r =>
            simp only [parseElemsF] at heq
            split at heq
            · cases heq
              exact ⟨.array _ hacc,
                fun x hx => List.mem_cons_of_mem _ hx⟩
            · split at heq
              · rename_i u rest2 hpv
                have hu := ihV (t :: r) u rest2 hwf hpv
                split at heq
                · have h := ihE (acc ++ [u]) rest2.tail v rest
                    (fun x hx => hwf x (hu.2 x (List.mem_of_mem_tail hx)))
                    (by
                      intro w hw
                      rcases List.mem_append.mp hw with hw | hw
                      · exact hacc w hw
                      · rw [List.mem_singleton] at hw
                        rw [hw]
                        exact hu.1) heq
                  exact ⟨h.1, fun x hx =>
                    hu.2 x (List.mem_of_mem_tail (h.2 x hx))⟩
                · have h := ihE (acc ++ [u]) rest2 v rest
                    (fun x hx => hwf x (hu.2 x hx))
                    (by
                      intro w hw
                      rcases List.mem_append.mp hw with hw | hw
                      · exact hacc w hw
                      · rw [List.mem_singleton] at hw
                        rw [hw]
                        exact hu.1) heq
                  exact ⟨h.1, fun x hx => hu.2 x (h.2 x hx)⟩
              · rename_i hne
                exact (hne _ _ heq).elim

/-! ## Lexer soundness: every emitted token is well-formed (`WfTok`) -/

theorem matchStringAux_soundN (N : ℕ) : ∀ cs : List Char, cs.length ≤ N →
    ∀ n, matchStringAux cs = some n →
    ∃ s, ContentLang s ∧ cs.take n = s ++ ['"'] ∧ n = s.length + 1 := by
  induction N with
  | zero =>
      intro cs hlen n h
      rw [List.length_eq_zero.mp (Nat.le_zero.mp hlen)] at h
      cases h
  | succ N ih =>
      intro cs hlen n h
      rw [matchStringAux.eq_def] at h
      split at h
      · cases h
      · cases h
        exact ⟨[], .nil, rfl, rfl⟩
      · rename_i c rest
        split at h
        · cases h
        · rename_i hc
          split at h
          · rename_i n' hrec
            cases h
            obtain ⟨s', hcl, htk, hlen'⟩ := ih rest
              (by simp at hlen; omega) n' hrec
            push_neg at hc
            refine ⟨'\\' :: c :: s', .esc c s' hc.1 hc.2 hcl, ?_, ?_⟩
            · rw [show (2 + n') = n' + 1 + 1 by omega]
              rw [List.take_succ_cons, List.take_succ_cons, htk]
              rfl
            · simp [hlen']; omega
          · cases h
      · cases h
      · rename_i c rest h1 h2 h3
        split at h
        · cases h
        · rename_i hc
          split at h
          · rename_i n' hrec
            cases h
            obtain ⟨s', hcl, htk, hlen'⟩ := ih rest
              (by simp at hlen; omega) n' hrec
            push_neg at hc
            refine ⟨c :: s', .chr c s' hc.1 hc.2 hcl, ?_, ?_⟩
            · rw [show (1 + n') = n' + 1 by omega]
              rw [List.take_succ_cons, htk]
              rfl
            · simp [hlen']; omega
          · cases h

theorem priMatch_string_inv {cs : List Char} {n : Nat}
    (h : priMatch cs = some (.stringLit, n)) : matchString cs = some n := by
  rw [priMatch] at h
  cases h1 : matchComment cs with
  | some m => rw [h1] at h; simp at h
  | none =>
  rw [h1] at h
  simp only [Option.map_none', Option.none_orElse] at h
  cases h2 : matchInclude cs with
  | some m => rw [h2] at h; simp at h
  | none =>
  rw [h2] at h
  simp only [Option.map_none', Option.none_orElse] at h
  cases h3 : matchEnvVar cs with
  | some m => rw [h3] at h; simp at h
  | none =>
  rw [h3] at h
  simp only [Option.map_none', Option.none_orElse] at h
  cases h4 : matchString cs with
  | some m =>
      rw [h4] at h
      simp only [Option.map_some', Option.some_orElse, Option.some.injEq,
        Prod.mk.injEq] at h
      rw [h.2]
  | none =>
  rw [h4] at h
  simp only [Option.map_none', Option.none_orElse] at h
  cases h5 : matchNumber cs with
  | some m => rw [h5] at h; simp at h
  | none =>
  rw [h5] at h
  simp only [Option.map_none', Option.none_orElse] at h
  cases h6 : matchBoolean cs with
  | some m => rw [h6] at h; simp at h
  | none =>
  rw [h6] at h
  simp only [Option.map_none', Option.none_orElse] at h
  cases h7 : matchEnumKw cs with
  | some m => rw [h7] at h; simp at h
  | none =>
  rw [h7] at h
  simp only [Option.map_none', Option.none_orElse] at h
  cases h8 : matchNullKw cs with
  | some m => rw [h8] at h; simp at h
  | none =>
  rw [h8] at h
  simp only [Option.map_none', Option.none_orElse] at h
  cases h9 : matchOperator cs with
  | some m => rw [h9] at h; simp at h
  | none =>
  rw [h9] at h
  simp only [Option.map_none', Option.none_orElse] at h
  cases h10 : matchNamespace cs with
  | some m => rw [h10] at h; simp at h
  | none =>
  rw [h10] at h
  simp only [Option.map_none', Option.none_orElse] at h
  cases h11 : matchIdentifier cs with
  | some m => rw [h11] at h; simp at h
  | none =>
  rw [h11] at h
  simp only [Option.map_none', Option.none_orElse] at h
  cases h12 : matchPunct cs with
  | some m => rw [h12] at h; simp at h
  | none => rw [h12] at h; simp at h

theorem priMatch_ident_inv {cs : List Char} {n : Nat}
    (h : priMatch cs = some (.identifier, n)) :
    matchBoolean cs = none ∧ matchEnumKw cs = none ∧
    matchNullKw cs = none ∧ matchIdentifier cs = some n := by
  rw [priMatch] at h
  cases h1 : matchComment cs with
  | some m => rw [h1] at h; simp at h
  | none =>
  rw [h1] at h
  simp only [Option.map_none', Option.none_orElse] at h
  cases h2 : matchInclude cs with
  | some m => rw [h2] at h; simp at h
  | none =>
  rw [h2] at h
  simp only [Option.map_none', Option.none_orElse] at h
  cases h3 : matchEnvVar cs with
  | some m => rw [h3] at h; simp at h
  | none =>
  rw [h3] at h
  simp only [Option.map_none', Option.none_orElse] at h
  cases h4 : matchString cs with
  | some m => rw [h4] at h; simp at h
  | none =>
  rw [h4] at h
  simp only [Option.map_none', Option.none_orElse] at h
  cases h5 : matchNumber cs with
  | some m => rw [h5] at h; simp at h
  | none =>
  rw [h5] at h
  simp only [Option.map_none', Option.none_orElse] at h
  cases h6 : matchBoolean cs with
  | some m => rw [h6] at h; simp at h
  | none =>
  rw [h6] at h
  simp only [Option.map_none', Option.none_orElse] at h
  cases h7 : matchEnumKw cs with
  | some m => rw [h7] at h; simp at h
  | none =>
  rw [h7] at h
  simp only [Option.map_none', Option.none_orElse] at h
  cases h8 : matchNullKw cs with
  | some m => rw [h8] at h; simp at h
  | none =>
  rw [h8] at h
  simp only [Option.map_none', Option.none_orElse] at h
  cases h9 : matchOperator cs with
  | some m => rw [h9] at h; simp at h
  | none =>
  rw [h9] at h
  simp only [Option.map_none', Option.none_orElse] at h
  cases h10 : matchNamespace cs with
  | some m => rw [h10] at h; simp at h
  | none =>
  rw [h10] at h
  simp only [Option.map_none', Option.none_orElse] at h
  cases h11 : matchIdentifier cs with
  | some m =>
      rw [h11] at h
      simp only [Option.map_some', Option.some_orElse, Option.some.injEq,
        Prod.mk.injEq] at h
      rw [h.2]
      exact ⟨rfl, rfl, rfl, rfl⟩
  | none =>
  rw [h11] at h
  simp only [Option.map_none', Option.none_orElse] at h
  cases h12 : matchPunct cs with
  | some m => rw [h12] at h; simp at h
  | none => rw [h12] at h; simp at h

theorem pfx_append_true {p w : List Char} (h : pfx p w = true)
    (r : List Char) : pfx p (w ++ r) = true := by
  induction p generalizing w with
  | nil => rw [pfx]
  | cons a as ih =>
      cases w with
      | nil =>
          simp only [pfx] at h
          exact Bool.noConfusion h
      | cons b bs =>
          rw [List.cons_append]
          simp only [pfx] at h ⊢
          rw [Bool.and_eq_true] at h ⊢
          exact ⟨h.1, ih h.2⟩

theorem pfx_of_take {p cs : List Char} {n : Nat}
    (h : pfx p (cs.take n) = true) : pfx p cs = true := by
  have h2 := pfx_append_true h (cs.drop n)
  rwa [List.take_append_drop] at h2

theorem priMatch_string_shape {cs : List Char} {n : Nat}
    (h : priMatch cs = some (.stringLit, n)) :
    ∃ s, ContentLang s ∧ cs.take n = '"' :: s ++ ['"'] := by
  have hs := priMatch_string_inv h
  rw [matchString.eq_def] at hs
  split at hs
  · rename_i rest
    split at hs
    · rename_i m hm
      cases hs
      obtain ⟨s, hcl, htk, hlen⟩ := matchStringAux_soundN rest.length rest
        le_rfl m hm
      refine ⟨s, hcl, ?_⟩
      rw [show 1 + m = m + 1 from by omega, List.take_succ_cons, htk]
      rfl
    · cases hs
  · cases hs

theorem matchIdentifier_shape {cs : List Char} {n : Nat}
    (h : matchIdentifier cs = some n) : IdentShape (cs.take n) := by
  rw [matchIdentifier.eq_def] at h
  split at h
  · rename_i c rest
    split at h
    · rename_i hc
      cases h
      have htw : rest.take (rest.takeWhile isIdentChar).length
          = rest.takeWhile isIdentChar := by
        have h2 := List.take_left (rest.takeWhile isIdentChar)
          (rest.dropWhile isIdentChar)
        rwa [List.takeWhile_append_dropWhile] at h2
      have ht : (c :: rest).take (1 + (rest.takeWhile isIdentChar).length)
          = c :: rest.takeWhile isIdentChar := by
        rw [show 1 + (rest.takeWhile isIdentChar).length
          = (rest.takeWhile isIdentChar).length + 1 from by omega]
        rw [List.take_succ_cons, htw]
      exact ⟨c, _, ht, hc, fun x hx => List.mem_takeWhile_imp hx⟩
    · cases h
  · cases h

theorem priMatch_ident_shape {cs : List Char} {n : Nat}
    (h : priMatch cs = some (.identifier, n)) : IdentOk (cs.take n) := by
  obtain ⟨hb, he, hnk, hid⟩ := priMatch_ident_inv h
  refine ⟨matchIdentifier_shape hid, ?_, ?_, ?_, ?_⟩
  · cases hp : pfx "true".toList (cs.take n) with
    | false => rfl
    | true =>
        rw [matchBoolean, if_pos (pfx_of_take hp)] at hb
        cases hb
  · cases hp : pfx "false".toList (cs.take n) with
    | false => rfl
    | true =>
        rw [matchBoolean] at hb
        split at hb
        · cases hb
        · rw [if_pos (pfx_of_take hp)] at hb
          cases hb
  · cases hp : pfx "enum".toList (cs.take n) with
    | false => rfl
    | true =>
        rw [matchEnumKw, if_pos (pfx_of_take hp)] at he
        cases he
  · cases hp : pfx "null".toList (cs.take n) with
    | false => rfl
    | true =>
        rw [matchNullKw, if_pos (pfx_of_take hp)] at hnk
        cases hnk

theorem tokenizeAux_wf : ∀ fuel cs line col ts,
    tokenizeAuxF fuel cs line col = .ok ts → AllWf ts := by
  intro fuel
  induction fuel with
  | zero => intro cs line col ts heq; cases heq
  | succ f ih =>
      intro cs line col ts heq
      cases cs with
      | nil =>
          cases heq
          intro t ht
          rw [List.mem_singleton] at ht
          subst ht
          constructor
          · intro hc
            simp at hc
          · intro hc
            simp at hc
      | cons c cs' =>
          simp only [tokenizeAuxF] at heq
          split at heq
          · split at heq
            · exact ih _ _ _ _ heq
            · exact ih _ _ _ _ heq
          · split at heq
            · cases heq
            · rename_i k n hpm
              split at heq
              · cases heq
              · rename_i toks htk
                split at heq
                · cases heq
                  exact ih _ _ _ _ htk
                · cases heq
                  intro t ht
                  rcases List.mem_cons.mp ht with rfl | ht'
                  · refine ⟨fun hs => ?_, fun hs => ?_⟩
                    · have hk : k = .stringLit := hs
                      rw [hk] at hpm
                      exact priMatch_string_shape hpm
                    · have hk : k = .identifier := hs
                      rw [hk] at hpm
                      exact priMatch_ident_shape hpm
                  · exact ih _ _ _ _ htk t ht'

theorem cfgppTokenize_wf {text : List Char} {ts : List Tok}
    (h : cfgppTokenize text = .ok ts) : AllWf ts :=
  tokenizeAux_wf _ _ _ _ _ h

/-- C6: for every value tree producible by the parser (any `v` that
`cfgpp_parse_string` returns on some input text), parsing the
serializer's output for `v` succeeds and returns a tree equal to `v` —
same variant tag and scalar value at every node, same array element
order, and the same object key/value pairs (here even in the same
order, which is stronger than the field-order-insensitive equality the
spec asks for). -/
theorem c6_serialize_parse_round_trip {t : List Char} {v : CfgppValue}
    (h : cfgppParseStringM t = .ok v) :
    cfgppParseStringM (serializeChars v) = .ok v := by
  have hprod : Producible v := by
    rw [cfgppParseStringM] at h
    split at h
    · cases h
    · rename_i ts0 htok
      split at h
      · rename_i v0 rest hpv
        cases h
        exact ((parse_sound _).1 ts0 v rest (cfgppTokenize_wf htok)
          hpv).1
      · cases h
      · cases h
  obtain ⟨ts, htok, hmap⟩ := tokenize_serialize hprod
  obtain ⟨ts₁, ts₂, hsplit, hm1, hm2⟩ := List.map_eq_append_iff.mp hmap
  obtain ⟨te, ts₃, rfl, hek, hev, hm3⟩ := map_projTok_cons hm2
  obtain rfl := map_projTok_nil hm3
  subst hsplit
  rw [cfgppParseStringM]
  simp only [htok]
  have hps := parse_ser hprod ts₁ [te] (2 * (ts₁ ++ [te]).length + 4) hm1
    (by rw [RestOk]; simp [hev, lbrace]) (by simp; omega)
  simp only [hps]

theorem c6_serialize_parse_round_trip_witness :
    cfgppParseStringM (serializeChars (CfgppValue.object
      [("a", CfgppValue.integer 1), ("b", CfgppValue.enumV "MULTI")])) =
    .ok (CfgppValue.object
      [("a", CfgppValue.integer 1), ("b", CfgppValue.enumV "MULTI")]) :=
  c6_serialize_parse_round_trip
    (t := "cfg \x7b a = 1 ; b = MULTI ; \x7d".toList) (by rfl)

/-! ## Remaining claim theorems -/

/-- C1: the claim says a failed scalar decode of a cluster field makes
`cfgpp_from_labview_cluster` return an error and no result object.
The code does the opposite: the loop at `cfgpp_parser.cpp:585-594`
checks `field_result == CFGPP_SUCCESS` and simply skips the field
otherwise.  Witnessed here on a 16-byte all-zero buffer with one field
name: the field's variant decode fails with
`CFGPP_ERROR_INVALID_PARAMETER` (type code 0 is unknown), yet the
cluster call succeeds and returns an object with the field silently
omitted. -/
theorem c1_cluster_skips_failed_field :
    fromLabviewVariantM (List.replicate 16 0) 16 =
      .errv .invalidParameter ∧
    fromLabviewClusterM (List.replicate 16 0) 16 ["a"] =
      .okv (.object []) := ⟨rfl, rfl⟩

/-- C2: the claim's first half holds (a claimed size under 16 bytes is
rejected before the type code is read), but its second half does not:
`cfgpp_from_labview_variant` never compares the payload length implied
by the type code against the buffer, so a boolean-typed header in a
16-byte buffer with a claimed size of 17 makes the code read payload
byte 16 — past the end of the allocation (`LvOut.oob`, undefined
behavior in the C++) — instead of failing with a buffer-too-small
error. -/
theorem c2_variant_reads_past_buffer :
    fromLabviewVariantM (List.replicate 15 0) 15 =
      .errv .invalidParameter ∧
    fromLabviewVariantM ([33, 0, 0, 0] ++ List.replicate 12 0) 17 =
      .oob := ⟨rfl, rfl⟩

/-- A field fold that has already cleared `matches` never sets it
again. -/
theorem checkFoldl_false (sch : CfgppSchemaM)
    (m : List (String × CfgppValue)) :
    ∀ (fields : List (String × String)) (l : List String),
    (fields.foldl (checkStep sch m) (l, false)).2 = false := by
  intro fields
  induction fields with
  | nil => intro l; rfl
  | cons ft fs ih =>
      intro l
      rw [List.foldl_cons, checkStep]
      cases hl : m.lookup ft.1 with
      | none =>
          simp only [hl]
          exact ih _
      | some v =>
          simp only [hl]
          split
          · exact ih l
          · exact ih _

/-- A schema whose field check ends with `matches` still set collected
no violation messages. -/
theorem checkFields_true_eq (sch : CfgppSchemaM)
    (flds : List (String × String)) (m : List (String × CfgppValue))
    (hok : (checkFields sch flds m).2 = true) :
    checkFields sch flds m = ([], true) := by
  rw [checkFields] at hok ⊢
  have main : ∀ (fs : List (String × String)) (acc : List String × Bool),
      (fs.foldl (checkStep sch m) acc).2 = true →
      fs.foldl (checkStep sch m) acc = acc := by
    intro fs
    induction fs with
    | nil => intro acc _; rfl
    | cons ft fs' ih =>
        intro acc hh
        rw [List.foldl_cons] at hh ⊢
        rw [checkStep] at hh ⊢
        cases hl : m.lookup ft.1 with
        | none =>
            simp only [hl] at hh ⊢
            rw [checkFoldl_false] at hh
            cases hh
        | some v =>
            simp only [hl] at hh ⊢
            split at hh
            · rename_i hv
              rw [if_pos hv]
              exact ih acc hh
            · rename_i hv
              rw [checkFoldl_false] at hh
              cases hh
  exact main flds ([], true) hok

/-- C3: amended — the violation list is empty when the value fully
satisfies the schema that `cfgpp_validate_value` examines FIRST; for a
schema satisfied only later in iteration order, the violations of the
earlier failing schemas are accumulated into the error buffer and the
call reports them (see the counterexample). -/
theorem c3_first_schema_satisfied (sch : CfgppSchemaM) (name : String)
    (flds : List (String × String))
    (rest : List (String × List (String × String)))
    (m : List (String × CfgppValue))
    (hs : sch.object_schemas = (name, flds) :: rest)
    (hok : (checkFields sch flds m).2 = true) :
    validateValue sch (.object m) = [] := by
  have hq := checkFields_true_eq sch flds m hok
  rw [validateValue, hs, findMatch]
  simp [hq]

theorem c3_first_schema_satisfied_witness :
    validateValue ⟨[], [("Cfg", [("x", "integer")])]⟩
      (.object [("x", CfgppValue.integer 5)]) = [] :=
  c3_first_schema_satisfied _ "Cfg" [("x", "integer")] [] _ rfl (by rfl)

/-- C3 counterexample: the value fully satisfies the second schema
`B` (the `checkFields` conjunct), yet `cfgpp_validate_value` is not
empty — it retains the missing-field violation collected from the
first schema `A`, refuting the claim's
"regardless of how many other object-schemas the value fails". -/
theorem c3_cross_schema_counterexample :
    (checkFields ⟨[], [("A", [("x", "integer")]), ("B", [("y", "integer")])]⟩
      [("y", "integer")] [("y", CfgppValue.integer 1)] = ([], true)) ∧
    validateValue ⟨[], [("A", [("x", "integer")]), ("B", [("y", "integer")])]⟩
      (.object [("y", CfgppValue.integer 1)]) =
      [missingMsg "x"] := ⟨rfl, rfl⟩

/-- Membership in `insertEnum`: every binding is an old one or carries
the inserted value. -/
theorem insertEnum_mem {m : List (String × List String)} {k : String}
    {v : List String} :
    ∀ p ∈ insertEnum m k v, p ∈ m ∨ p.2 = v := by
  induction m with
  | nil =>
      intro p hp
      rw [insertEnum, List.mem_singleton] at hp
      subst hp
      exact Or.inr rfl
  | cons q m' ih =>
      obtain ⟨k', v'⟩ := q
      intro p hp
      rw [insertEnum] at hp
      split at hp
      · rcases List.mem_cons.mp hp with rfl | hp'
        · exact Or.inr rfl
        · exact Or.inl (List.mem_cons_of_mem _ hp')
      · rcases List.mem_cons.mp hp with rfl | hp'
        · exact Or.inl (List.mem_cons_self _ _)
        · rcases ih p hp' with h | h
          · exact Or.inl (List.mem_cons_of_mem _ h)
          · exact Or.inr h

/-- One schema line either leaves `enum_definitions` unchanged or
inserts a binding with the empty member list (member harvesting is
unimplemented in the source, `cfgpp_parser.cpp:751-753`). -/
theorem schemaLine_enum_defs (st : CfgppSchemaM × String)
    (line : List Char) :
    (schemaLine st line).1.enum_definitions = st.1.enum_definitions ∨
    ∃ k, (schemaLine st line).1.enum_definitions =
      insertEnum st.1.enum_definitions k [] := by
  rw [schemaLine]
  split
  · exact Or.inl rfl
  · dsimp only
    repeat' split
    all_goals first
      | exact Or.inl rfl
      | exact Or.inr ⟨_, rfl⟩

theorem schemaParse_enum_empty_aux :
    ∀ (lines : List (List Char)) (st : CfgppSchemaM × String),
    (∀ p ∈ st.1.enum_definitions, p.2 = ([] : List String)) →
    ∀ p ∈ (lines.foldl schemaLine st).1.enum_definitions, p.2 = [] := by
  intro lines
  induction lines with
  | nil => intro st h; exact h
  | cons l ls ih =>
      intro st h
      rw [List.foldl_cons]
      apply ih
      intro p hp
      rcases schemaLine_enum_defs st l with he | ⟨k, he⟩
      · rw [he] at hp
        exact h p hp
      · rw [he] at hp
        rcases insertEnum_mem p hp with h1 | h1
        · exact h p h1
        · exact h1

/-- C4: amended — every enum type `cfgpp_schema_parse_string` records
has an empty member set, and `validate_type` fails for every value
against any name that is NOT one of the six built-in type names
(declared as an enum or not).  But the claim's "always fails" is wrong
for an enum declared under a built-in name: the built-in check runs
first and can succeed (see the counterexample). -/
theorem c4_declared_enum_members_empty (text : List Char) (name : String)
    (v : CfgppValue)
    (h1 : name ≠ "string") (h2 : name ≠ "integer") (h3 : name ≠ "double")
    (h4 : name ≠ "boolean") (h5 : name ≠ "array") (h6 : name ≠ "object") :
    (∀ p ∈ (schemaParseString text).enum_definitions, p.2 = []) ∧
    validateType (schemaParseString text) name v = false := by
  have hemp : ∀ p ∈ (schemaParseString text).enum_definitions,
      p.2 = ([] : List String) := by
    rw [schemaParseString]
    exact schemaParse_enum_empty_aux _ _ (by intro p hp; cases hp)
  refine ⟨hemp, ?_⟩
  rw [validateType.eq_def, if_neg h1, if_neg h2, if_neg h3, if_neg h4,
    if_neg h5, if_neg h6]
  cases hl : (schemaParseString text).enum_definitions.lookup name with
  | none => rfl
  | some vals =>
      have hmem : (name, vals) ∈
          (schemaParseString text).enum_definitions := by
        obtain ⟨l₁, l₂, he, _⟩ := List.lookup_eq_some_iff.mp hl
        rw [he]
        exact List.mem_append_right _ (List.mem_cons_self _ _)
      have hv : vals = [] := hemp (name, vals) hmem
      cases v <;> simp [hv]

theorem c4_declared_enum_members_empty_witness :
    (∀ p ∈ (schemaParseString "enum Mode \x7b \x7d".toList).enum_definitions,
      p.2 = []) ∧
    validateType (schemaParseString "enum Mode \x7b \x7d".toList) "Mode"
      (.enumV "A") = false :=
  c4_declared_enum_members_empty _ "Mode" _ (by decide) (by decide)
    (by decide) (by decide) (by decide) (by decide)

/-- C4 counterexample: an enum declared under the name `string` is
recorded (with an empty member set), yet `validate_type` against it
does NOT always fail — the built-in type check intercepts the name and
accepts any String value, refuting the claim's "validation against any
declared enum type always fails". -/
theorem c4_builtin_enum_name_counterexample :
    (schemaParseString "enum string \x7b \x7d".toList).enum_definitions =
      [("string", [])] ∧
    validateType (schemaParseString "enum string \x7b \x7d".toList)
      "string" (.stringV "s") = true := ⟨rfl, rfl⟩

/-- C5: with the single object-schema `Cfg` requiring field `x` of
type `integer`, the object `\x7b x = 5 \x7d` validates with no
violations, and the object binding `x` to the string `"s"` yields
exactly the one wrong-type violation naming field `x`. -/
theorem c5_cfg_integer_field_validation :
    validateValue ⟨[], [("Cfg", [("x", "integer")])]⟩
      (.object [("x", CfgppValue.integer 5)]) = [] ∧
    validateValue ⟨[], [("Cfg", [("x", "integer")])]⟩
      (.object [("x", CfgppValue.stringV "s")]) =
      [wrongTypeMsg "x" "integer"] := ⟨rfl, rfl⟩

/-- C7: in `parse_value` an IDENTIFIER token followed by a `\x7b`
token is consumed as a discarded object name and parsing proceeds as
`parse_object`; with any other (or no) following token the identifier
alone is consumed and yields an Enum value holding exactly its text;
concretely, `MULTIMETER` parses to `Enum("MULTIMETER")`. -/
theorem c7_identifier_lookahead :
    (∀ (f : Nat) (t : Tok) (rest : List Tok), t.kind = .identifier →
      rest.head?.map Tok.val = some lbrace →
      parseValueF (f + 1) (t :: rest) = parseObjectF f (t :: rest)) ∧
    (∀ (f : Nat) (t : Tok) (rest : List Tok), t.kind = .identifier →
      rest.head?.map Tok.val ≠ some lbrace →
      parseValueF (f + 1) (t :: rest) =
        .okr (.enumV (String.mk t.val)) rest) ∧
    cfgppParseStringM "MULTIMETER".toList = .ok (.enumV "MULTIMETER") := by
  refine ⟨?_, ?_, by rfl⟩
  · intro f t rest hk hl
    rw [parseValue_ident_step hk, if_pos hl]
  · intro f t rest hk hl
    rw [parseValue_ident_step hk, if_neg hl]

theorem c7_identifier_lookahead_witness :
    parseValueF 4 [⟨.identifier, "MULTIMETER".toList, 1, 1⟩] =
      .okr (.enumV (String.mk "MULTIMETER".toList)) [] ∧
    parseValueF 4 [⟨.identifier, "cfg".toList, 1, 1⟩,
        ⟨.punctuation, lbrace, 1, 5⟩] =
      parseObjectF 3 [⟨.identifier, "cfg".toList, 1, 1⟩,
        ⟨.punctuation, lbrace, 1, 5⟩] :=
  ⟨c7_identifier_lookahead.2.1 3 _ [] rfl (by decide),
   c7_identifier_lookahead.1 3 _ _ rfl (by rfl)⟩

/-- C8: amended — a numeric literal whose fractional part is
well-formed (at least one digit after the `.`) lexes as a single
NUMBER token, and the parser defers classification, reading such a
token as a Double via `std::stod`.  But the claim's "even when the
fractional part or exponent is malformed" is wrong: the regex group
`(?:\.\d+)?` needs a digit after the dot, so `1.` and `1e` each lex
as TWO tokens (see the counterexample). -/
theorem c8_wellformed_number_single_token (a b : List Char)
    (ha : a ≠ []) (hb : b ≠ [])
    (hda : ∀ c ∈ a, isDigitChar c = true)
    (hdb : ∀ c ∈ b, isDigitChar c = true)
    (r : List Char) (hr : SpacedOrEnd r) :
    priMatch (a ++ '.' :: (b ++ r)) =
      some (.number, a.length + (1 + b.length)) ∧
    ∀ (f : Nat) (t : Tok) (rest : List Tok), t.kind = .number →
      t.val = a ++ '.' :: b →
      parseValueF (f + 1) (t :: rest) =
        .okr (.double ((natOfDigits a : ℚ) +
          (natOfDigits b : ℚ) / 10 ^ b.length)) rest := by
  constructor
  · have hm := matchNumber_frac ha hb hda hdb hr
    have he : a ++ '.' :: (b ++ r) = (a ++ '.' :: b) ++ r := by simp
    have hlen : (a ++ '.' :: b).length = a.length + (1 + b.length) := by
      simp
      omega
    have hm2 : matchNumber ((a ++ '.' :: b) ++ r) =
        some ((a ++ '.' :: b).length) := by
      rw [← he, hm, hlen]
    have h2 := priMatch_numTok (by simp) (by
      intro x hx
      cases a with
      | nil => exact absurd rfl ha
      | cons y t =>
          rw [List.cons_append, List.head?_cons, Option.some.injEq] at hx
          rw [← hx]
          exact hda y (by simp)) hm2
    rw [he, h2, hlen]
  · intro f t rest hk hv
    have hc : (a ++ '.' :: b).contains '.' = true := by
      rw [List.contains_eq_any_beq, List.any_eq_true]
      exact ⟨'.', by simp, by simp⟩
    rw [parseValue_number_step hk, hv, if_pos (Or.inl hc),
      stodM_frac ha hb hda hdb]

theorem c8_wellformed_number_single_token_witness :
    priMatch (['1'] ++ '.' :: (['5'] ++ [])) =
      some (.number, ['1'].length + (1 + ['5'].length)) ∧
    parseValueF 1 [⟨.number, ['1'] ++ '.' :: ['5'], 1, 1⟩] =
      .okr (.double ((natOfDigits ['1'] : ℚ) +
        (natOfDigits ['5'] : ℚ) / 10 ^ ['5'].length)) [] :=
  ⟨(c8_wellformed_number_single_token ['1'] ['5'] (by decide) (by decide)
      (by decide) (by decide) [] (Or.inl rfl)).1,
   (c8_wellformed_number_single_token ['1'] ['5'] (by decide) (by decide)
      (by decide) (by decide) [] (Or.inl rfl)).2 0 _ [] rfl rfl⟩

/-- C8 counterexample: `1.` lexes as NUMBER `1` followed by the
punctuation `.`, and `1e` as NUMBER `1` followed by the identifier
`e` — not as a single NUMBER token each, refuting the claim's
malformed-literal clause. -/
theorem c8_malformed_number_counterexample :
    cfgppTokenize "1.".toList =
      .ok [⟨.number, ['1'], 1, 1⟩, ⟨.punctuation, ['.'], 1, 2⟩,
        ⟨.eof, [], 1, 3⟩] ∧
    cfgppTokenize "1e".toList =
      .ok [⟨.number, ['1'], 1, 1⟩, ⟨.identifier, ['e'], 1, 2⟩,
        ⟨.eof, [], 1, 3⟩] := ⟨rfl, rfl⟩

/-- C9: a non-space character at which no pattern matches makes
`tokenize` abort with an error naming the character and its exact
line and column (the C++ function then returns an empty token vector,
not a partial one — the error outcome of the embedding); concretely,
`abc %` fails at line 1 column 5 and `ab\ncd  %x` at line 2
column 5. -/
theorem c9_unexpected_character_error :
    (∀ (fuel : Nat) (c : Char) (cs : List Char) (line col : Nat),
      isSpaceChar c = false → priMatch (c :: cs) = none →
      tokenizeAuxF (fuel + 1) (c :: cs) line col =
        .error ⟨unexpMsg c, line, col⟩) ∧
    cfgppTokenize "abc %".toList = .error ⟨unexpMsg '%', 1, 5⟩ ∧
    cfgppTokenize "ab\ncd  %x".toList = .error ⟨unexpMsg '%', 2, 5⟩ := by
  refine ⟨?_, by rfl, by rfl⟩
  · intro fuel c cs line col hs hp
    simp only [tokenizeAuxF]
    rw [if_neg (by simp [hs]), hp]

theorem c9_unexpected_character_error_witness :
    tokenizeAuxF 3 ['%'] 1 1 = .error ⟨unexpMsg '%', 1, 1⟩ :=
  c9_unexpected_character_error.1 2 '%' [] 1 1 (by decide) (by decide)

/-- C10: `cfgpp_parse_string` parses one value from position 0 and
ignores every token after it: whenever the lexer succeeds and
`parse_value` consumes a first value, the call returns that value with
success no matter what tokens remain; concretely `1 2` yields
`Integer(1)` with no syntax error. -/
theorem c10_ignores_trailing_tokens :
    (∀ (text : List Char) (ts : List Tok) (v : CfgppValue)
      (rest : List Tok),
      cfgppTokenize text = .ok ts →
      parseValueF (2 * ts.length + 4) ts = .okr v rest →
      cfgppParseStringM text = .ok v) ∧
    cfgppParseStringM "1 2".toList = .ok (.integer 1) := by
  refine ⟨?_, by rfl⟩
  · intro text ts v rest htok hpv
    rw [cfgppParseStringM]
    simp only [htok, hpv]

theorem c10_ignores_trailing_tokens_witness :
    cfgppParseStringM "1 2".toList = .ok (.integer 1) :=
  c10_ignores_trailing_tokens.1 "1 2".toList
    [⟨.number, ['1'], 1, 1⟩, ⟨.number, ['2'], 1, 3⟩, ⟨.eof, [], 1, 4⟩]
    (.integer 1)
    [⟨.number, ['2'], 1, 3⟩, ⟨.eof, [], 1, 4⟩] rfl rfl

end Cfgpp
